import Mathlib

/-!
Verification of the repository-to-document compiler in `github2file.py`.

The development shallowly embeds the pure core of the pipeline:
byte-level UTF-8 decoding and binary detection (`is_binary_file`),
the content classifier (`is_file_type?`, `is_likely_useful_file`,
`is_test_file`, `has_sufficient_content`), the default-branch resolver
(`check_default_branches`), the comment/docstring normalizer
(`remove_comments_and_docstrings`, over a mini-Python fragment with a
parser and printer), the README search (`findReadmeContent`) and the
document assembler (`process_repository_files`).

Machine strings are Lean `String`s; raw file bytes are `List Nat`
(each element a byte value).  An archive is its name list paired with
byte contents, in native order; reading a name returns the bytes of the
last entry carrying that name, as Python's `zipfile` does.
-/

/-! ## Basic string utilities mirroring Python `str` operations -/

/-- Python `s.startswith(p)`. -/
def strStartsWith (s p : String) : Bool := p.data.isPrefixOf s.data

/-- Python `s.endswith(p)`. -/
def strEndsWith (s p : String) : Bool := p.data.reverse.isPrefixOf s.data.reverse

/-- Helper for substring containment: scan the haystack left to right. -/
def subScan (needle : List Char) : List Char → Bool
  | [] => needle.isEmpty
  | c :: rest => needle.isPrefixOf (c :: rest) || subScan needle rest

/-- Python `needle in hay` for strings (contiguous substring test). -/
def strContainsSub (hay needle : String) : Bool := subScan needle.data hay.data

/-- Split a character list at every occurrence of `sep` (Python `str.split(sep)`). -/
def splitOnChar (sep : Char) : List Char → List (List Char)
  | [] => [[]]
  | c :: cs =>
    if c = sep then [] :: splitOnChar sep cs
    else
      match splitOnChar sep cs with
      | l :: ls => (c :: l) :: ls
      | [] => [[c]]

/-- Python `s.split(sep)` for a one-character separator. -/
def strSplit (sep : Char) (s : String) : List String :=
  (splitOnChar sep s.data).map String.mk

/-- The characters Python's `str.strip()` removes. -/
def pyIsSpace (c : Char) : Bool :=
  c = ' ' || c = '\t' || c = '\n' || c = '\r' || c = '\x0b' || c = '\x0c'

/-- Python `s.strip()`. -/
def pyStrip (s : String) : String :=
  String.mk (((s.data.dropWhile pyIsSpace).reverse.dropWhile pyIsSpace).reverse)

/-- Python `s.ljust(w)` (pad with spaces on the right to width `w`). -/
def ljust (s : String) (w : Nat) : String :=
  s ++ String.mk (List.replicate (w - s.length) ' ')

/-- Lower one ASCII letter. -/
def asciiLower (c : Char) : Char :=
  if 'A' ≤ c && c ≤ 'Z' then Char.ofNat (c.toNat + 32) else c

/-- Python `s.lower()` (the language names and path fragments compared in the
code are ASCII, so ASCII lowering is faithful here). -/
def pyToLower (s : String) : String := String.mk (s.data.map asciiLower)

/-! ## UTF-8 decoding and binary detection

`utf8Decode` models Python's strict `bytes.decode('utf-8')`: it rejects
stray continuation bytes, overlong encodings, surrogates and code points
above U+10FFFF.  `utf8DecodeReplace` models `decode('utf-8',
errors='replace')`; it never fails.  The number of U+FFFD replacement
characters substituted for one invalid sequence is modeled per byte (a
detail no claim depends on). -/

/-- Whether a byte is a UTF-8 continuation byte. -/
def utf8Cont (b : Nat) : Bool := 0x80 ≤ b && b ≤ 0xBF

/-- Lower bound of the second byte given the leading byte (UTF-8 shortest-form rule). -/
def utf8Lo (b : Nat) : Nat := if b == 0xE0 then 0xA0 else if b == 0xF0 then 0x90 else 0x80

/-- Upper bound of the second byte given the leading byte (surrogate and range rule). -/
def utf8Hi (b : Nat) : Nat := if b == 0xED then 0x9F else if b == 0xF4 then 0x8F else 0xBF

mutual
/-- Strict UTF-8 decoding of a byte list into characters; `none` models `UnicodeDecodeError`. -/
def utf8Decode : List Nat → Option (List Char)
  | [] => some []
  | b :: rest =>
    if b ≤ 0x7F then (utf8Decode rest).map (fun cs => Char.ofNat b :: cs)
    else if b ≤ 0xC1 then none
    else if b ≤ 0xDF then utf8Two b rest
    else if b ≤ 0xEF then utf8Three b rest
    else if b ≤ 0xF4 then utf8Four b rest
    else none
/-- Decode the continuation of a two-byte sequence. -/
def utf8Two (b : Nat) : List Nat → Option (List Char)
  | b1 :: rest2 =>
    if utf8Cont b1 then
      (utf8Decode rest2).map (fun cs => Char.ofNat ((b - 0xC0) * 0x40 + (b1 - 0x80)) :: cs)
    else none
  | [] => none
/-- Decode the continuation of a three-byte sequence. -/
def utf8Three (b : Nat) : List Nat → Option (List Char)
  | b1 :: b2 :: rest2 =>
    if (utf8Lo b ≤ b1 && b1 ≤ utf8Hi b) && utf8Cont b2 then
      (utf8Decode rest2).map (fun cs =>
        Char.ofNat ((b - 0xE0) * 0x1000 + (b1 - 0x80) * 0x40 + (b2 - 0x80)) :: cs)
    else none
  | _ => none
/-- Decode the continuation of a four-byte sequence. -/
def utf8Four (b : Nat) : List Nat → Option (List Char)
  | b1 :: b2 :: b3 :: rest2 =>
    if (utf8Lo b ≤ b1 && b1 ≤ utf8Hi b) && utf8Cont b2 && utf8Cont b3 then
      (utf8Decode rest2).map (fun cs =>
        Char.ofNat ((b - 0xF0) * 0x40000 + (b1 - 0x80) * 0x1000 +
          (b2 - 0x80) * 0x40 + (b3 - 0x80)) :: cs)
    else none
  | _ => none
end

/-- The U+FFFD replacement character. -/
def replChar : Char := Char.ofNat 0xFFFD

/-- Total UTF-8 decoding with replacement, modeling `decode('utf-8', errors='replace')`. -/
def utf8DecodeReplace : List Nat → List Char
  | [] => []
  | b :: rest =>
    if b ≤ 0x7F then Char.ofNat b :: utf8DecodeReplace rest
    else if b ≤ 0xC1 then replChar :: utf8DecodeReplace rest
    else if b ≤ 0xDF then
      match rest with
      | b1 :: rest2 =>
        if utf8Cont b1 then
          Char.ofNat ((b - 0xC0) * 0x40 + (b1 - 0x80)) :: utf8DecodeReplace rest2
        else replChar :: utf8DecodeReplace (b1 :: rest2)
      | [] => [replChar]
    else if b ≤ 0xEF then
      match rest with
      | b1 :: b2 :: rest2 =>
        if (utf8Lo b ≤ b1 && b1 ≤ utf8Hi b) && utf8Cont b2 then
          Char.ofNat ((b - 0xE0) * 0x1000 + (b1 - 0x80) * 0x40 + (b2 - 0x80)) ::
            utf8DecodeReplace rest2
        else replChar :: utf8DecodeReplace (b1 :: b2 :: rest2)
      | rest' => replChar :: utf8DecodeReplace rest'
    else if b ≤ 0xF4 then
      match rest with
      | b1 :: b2 :: b3 :: rest2 =>
        if (utf8Lo b ≤ b1 && b1 ≤ utf8Hi b) && utf8Cont b2 && utf8Cont b3 then
          Char.ofNat ((b - 0xF0) * 0x40000 + (b1 - 0x80) * 0x1000 +
            (b2 - 0x80) * 0x40 + (b3 - 0x80)) :: utf8DecodeReplace rest2
        else replChar :: utf8DecodeReplace (b1 :: b2 :: b3 :: rest2)
      | rest' => replChar :: utf8DecodeReplace rest'
    else replChar :: utf8DecodeReplace rest

/-- Decode bytes to a Lean string with replacement. -/
def decodeReplace (bytes : List Nat) : String := String.mk (utf8DecodeReplace bytes)

/-- The NUL character. -/
def nulChar : Char := Char.ofNat 0

/-- Embedding of `is_binary_file`: strict-decode the sample; a decode failure, or a
NUL character in the decoded text, marks the content binary. -/
def is_binary_file (content_sample : List Nat) : Bool :=
  match utf8Decode content_sample with
  | none => true
  | some cs => cs.contains nulChar

/-! ## Content classifier -/

/-- Embedding of `get_language_extensions`: the fixed language-to-extensions table.
The Python dict lookup raises `KeyError` for a language outside the table, modeled
as `none`. -/
def getLanguageExtensions? (language : String) : Option (List String) :=
  match pyToLower language with
  | "python" => some [".py", ".pyw"]
  | "go" => some [".go"]
  | "javascript" => some [".js", ".jsx", ".ts", ".tsx"]
  | "java" => some [".java"]
  | "md" => some [".md"]
  | _ => none

/-- Embedding of `is_file_type`; `none` models the propagated `KeyError`. -/
def is_file_type? (file_path language : String) : Option Bool :=
  (getLanguageExtensions? language).map (fun exts => exts.any (fun ext => strEndsWith file_path ext))

/-- The `excluded_dirs` list built in `is_likely_useful_file`. -/
def excludedDirsFor (lang : String) : List String :=
  let base := ["examples", "tests", "test", "scripts", "utils", "benchmarks"]
  if lang == "python" then base ++ ["__pycache__"]
  else if lang == "go" then base ++ ["vendor"]
  else base

/-- The `utility_or_config_files` list built in `is_likely_useful_file`. -/
def utilityConfigFilesFor (lang : String) : List String :=
  if lang == "python" then ["hubconf.py", "setup.py"]
  else if lang == "go" then ["go.mod", "go.sum", "Makefile"]
  else []

/-- The `workflow_or_docs` list built in `is_likely_useful_file`. -/
def workflowOrDocsFor (lang : String) : List String :=
  let base := [".github", ".gitlab-ci.yml", ".gitignore", "LICENSE", "README"]
  if lang == "python" then base ++ ["stale.py", "gen-card-", "write_model_card"]
  else base

/-- Embedding of `is_likely_useful_file`, mirroring its early-return chain. -/
def is_likely_useful_file (file_path lang : String) : Bool :=
  if (strSplit '/' file_path).any (fun part => strStartsWith part ".") then false
  else if strContainsSub (pyToLower file_path) "test" then false
  else if (excludedDirsFor lang).any
      (fun d => strContainsSub file_path ("/" ++ d ++ "/") || strStartsWith file_path (d ++ "/")) then false
  else if (utilityConfigFilesFor lang).any (fun f => strContainsSub file_path f) then false
  else if (workflowOrDocsFor lang).any (fun f => strContainsSub file_path f) then false
  else true

/-- The `test_indicators` table of `is_test_file` (`dict.get` with default `[]`). -/
def testIndicatorsFor (lang : String) : List String :=
  if lang == "python" then ["import unittest", "import pytest", "from unittest", "from pytest"]
  else if lang == "go" then ["import testing", "func Test"]
  else []

/-- Embedding of `is_test_file`. -/
def is_test_file (file_content lang : String) : Bool :=
  (testIndicatorsFor lang).any (fun ind => strContainsSub file_content ind)

/-- Embedding of `has_sufficient_content`. -/
def has_sufficient_content (file_content : String) (min_line_count : Nat) : Bool :=
  min_line_count ≤ ((strSplit '\n' file_content).filter (fun line =>
    (pyStrip line != "") && !(strStartsWith (pyStrip line) "#")
      && !(strStartsWith (pyStrip line) "//"))).length

/-! ## Default-branch resolver

`check_default_branches` performs one HTTP request; the response is an
input of the embedding.  A raised exception is `Except.error ()`; the
caller `download_repo` catches it and keeps the ref it already had. -/

/-- One element of the parsed branch-listing JSON array. -/
inductive JsonItem where
  /-- A JSON object carrying a `name` field. -/
  | obj (name : String)
  /-- A JSON object with no `name` field: subscripting raises `KeyError`. -/
  | objNoName
  /-- A non-object element: subscripting raises `TypeError`. -/
  | nonDict
deriving DecidableEq, Repr

/-- The body of the branch-listing HTTP response. -/
inductive BranchesBody where
  /-- Valid JSON that is a list. -/
  | jsonList (items : List JsonItem)
  /-- Valid JSON that is not a list. -/
  | jsonOther
  /-- `response.json()` raises `ValueError`. -/
  | invalidJson
deriving DecidableEq, Repr

/-- Outcome of the one `requests.get` call made by the resolver. -/
inductive BranchesResponse where
  /-- The transport itself raised (connection error and the like). -/
  | transportError
  /-- An HTTP response with a status code and body. -/
  | httpResp (status : Nat) (body : BranchesBody)
deriving DecidableEq, Repr

/-- Evaluate the list comprehension `[branch['name'] for branch in branches]`.
`error true` is a `KeyError` (caught by the resolver); `error false` is a
`TypeError` (not caught, so it propagates). -/
def collectNames : List JsonItem → Except Bool (List String)
  | [] => .ok []
  | .obj n :: rest => (collectNames rest).map (fun ns => n :: ns)
  | .objNoName :: _ => .error true
  | .nonDict :: _ => .error false

/-- Embedding of `check_default_branches` as a function of the response;
`Except.error ()` models an exception escaping the function. -/
def check_default_branches (resp : BranchesResponse) : Except Unit String :=
  match resp with
  | .transportError => .error ()
  | .httpResp status body =>
    if status == 200 then
      match body with
      | .invalidJson => .ok "main"
      | .jsonOther => .ok "main"
      | .jsonList items =>
        match collectNames items with
        | .error true => .ok "main"
        | .error false => .error ()
        | .ok names =>
          if names.contains "main" then .ok "main"
          else if names.contains "master" then .ok "master"
          else .ok "main"
    else .ok "main"

/-- Embedding of the resolution step in `download_repo`: only the two
conventional defaults trigger the lookup, and an escaping exception is
caught, the run continuing with the ref that was requested. -/
def resolveRef (requestedRef : String) (resp : BranchesResponse) : String :=
  if requestedRef == "main" || requestedRef == "master" then
    match check_default_branches resp with
    | .ok r => r
    | .error _ => requestedRef
  else requestedRef

/-! ## The comment/docstring normalizer over a mini-Python fragment

`remove_comments_and_docstrings` parses Python source with `ast.parse`,
removes the leading docstring of every function/class whose docstring is
truthy, blanks every other bare constant expression statement, and
re-serializes with `ast.unparse`.  The fragment embedded here has
`pass` statements, bare string/None constant statements, `def`,
`async def` and `class` blocks with 4-space indentation — enough to
exercise every branch of the transformation.  The printer is canonical
(single-quoted strings), standing in for `ast.unparse`'s fixed style. -/

/-- Python constants that can appear as a bare expression statement. -/
inductive PyConst where
  /-- A string literal. -/
  | str (s : String)
  /-- The `None` literal (a representative non-string constant). -/
  | noneC
deriving DecidableEq, Repr

/-- Characters allowed in an identifier in the fragment. -/
def isIdentChar (c : Char) : Bool := c.isAlphanum || c = '_'

/-- Validity of an identifier. -/
def identOk (s : String) : Bool := (s != "") && s.data.all isIdentChar

/-- A validated identifier. -/
abbrev Ident := {s : String // identOk s = true}

mutual
/-- A statement of the fragment. -/
inductive PyStmt where
  /-- A bare constant expression statement (string literal or `None`). -/
  | exprConst (c : PyConst)
  /-- The `pass` statement. -/
  | passStmt
  /-- A `def` or `async def` with a statement block. -/
  | defStmt (isAsync : Bool) (name : Ident) (body : PyBlock)
  /-- A `class` with a statement block. -/
  | classStmt (name : Ident) (body : PyBlock)
deriving DecidableEq, Repr
/-- A sequence of statements. -/
inductive PyBlock where
  /-- The empty block. -/
  | nil
  /-- A statement followed by the rest of the block. -/
  | cons (s : PyStmt) (rest : PyBlock)
deriving DecidableEq, Repr
end

/-- Truthiness of `ast.get_docstring` (with its default cleaning): the docstring
is truthy exactly when it has a non-whitespace character. -/
def pyTruthy (s : String) : Bool := s.data.any (fun c => !pyIsSpace c)

/-- Drop a leading truthy docstring from a block (`node.body = node.body[1:]`). -/
def dropDoc (b : PyBlock) : PyBlock :=
  match b with
  | .cons (.exprConst (.str s)) rest => if pyTruthy s then rest else b
  | _ => b

theorem sizeOf_dropDoc_le (b : PyBlock) : sizeOf (dropDoc b) ≤ sizeOf b := by
  unfold dropDoc
  split
  · split
    · simp_arith
    · simp
  · simp

mutual
/-- Transform one statement: blank bare constants, recurse into definition bodies. -/
def transformStmt : PyStmt → PyStmt
  | .exprConst _ => .exprConst (.str "")
  | .passStmt => .passStmt
  | .defStmt a n b => .defStmt a n (transformBody b)
  | .classStmt n b => .classStmt n (transformBody b)
/-- Transform the body of a `def`/`class`: drop a truthy docstring, then transform. -/
def transformBody : PyBlock → PyBlock
  | .nil => .nil
  | .cons (.exprConst (.str s)) rest =>
    if pyTruthy s then transformList rest
    else .cons (.exprConst (.str "")) (transformList rest)
  | .cons s rest => .cons (transformStmt s) (transformList rest)
/-- Transform every statement of a block (no docstring dropping; used at module level,
where the code's `isinstance` check does not fire). -/
def transformList : PyBlock → PyBlock
  | .nil => .nil
  | .cons s rest => .cons (transformStmt s) (transformList rest)
end

/-- The body transformation is docstring removal followed by the plain
per-statement transformation. -/
theorem transformBody_eq (b : PyBlock) : transformBody b = transformList (dropDoc b) := by
  cases b with
  | nil => rfl
  | cons s rest =>
    cases s with
    | exprConst c =>
      cases c with
      | str s' =>
        show (if pyTruthy s' then transformList rest
          else .cons (.exprConst (.str "")) (transformList rest)) =
          transformList (if pyTruthy s' then rest
            else PyBlock.cons (PyStmt.exprConst (PyConst.str s')) rest)
        by_cases ht : pyTruthy s' = true
        · rw [if_pos ht, if_pos ht]
        · rw [if_neg ht, if_neg ht]
          rfl
      | noneC => rfl
    | passStmt => rfl
    | defStmt a n b' => rfl
    | classStmt n b' => rfl

theorem transformList_nil : transformList .nil = .nil := by simp [transformList]

theorem transformList_cons (s : PyStmt) (rest : PyBlock) :
    transformList (.cons s rest) = .cons (transformStmt s) (transformList rest) := by
  simp [transformList]

theorem transformStmt_expr (c : PyConst) :
    transformStmt (.exprConst c) = .exprConst (.str "") := by simp [transformStmt]

theorem transformStmt_pass : transformStmt .passStmt = .passStmt := by simp [transformStmt]

theorem transformStmt_def (a : Bool) (n : Ident) (b : PyBlock) :
    transformStmt (.defStmt a n b) = .defStmt a n (transformBody b) := by simp [transformStmt]

theorem transformStmt_class (n : Ident) (b : PyBlock) :
    transformStmt (.classStmt n b) = .classStmt n (transformBody b) := by simp [transformStmt]

theorem pyTruthy_empty : pyTruthy "" = false := by decide

theorem dropDoc_transformList (l : PyBlock) : dropDoc (transformList l) = transformList l := by
  cases l with
  | nil => rw [transformList_nil]; rfl
  | cons s rest =>
    rw [transformList_cons]
    cases s with
    | exprConst c => rw [transformStmt_expr]; simp [dropDoc, pyTruthy_empty]
    | passStmt => rw [transformStmt_pass]; rfl
    | defStmt a n b => rw [transformStmt_def]; rfl
    | classStmt n b => rw [transformStmt_class]; rfl

mutual
theorem transformStmt_idem (s : PyStmt) : transformStmt (transformStmt s) = transformStmt s := by
  cases s with
  | exprConst c => rw [transformStmt_expr, transformStmt_expr]
  | passStmt => rw [transformStmt_pass, transformStmt_pass]
  | defStmt a n b =>
    rw [transformStmt_def, transformStmt_def, transformBody_eq, transformBody_eq,
        dropDoc_transformList, transformList_idem (dropDoc b)]
  | classStmt n b =>
    rw [transformStmt_class, transformStmt_class, transformBody_eq, transformBody_eq,
        dropDoc_transformList, transformList_idem (dropDoc b)]
termination_by (sizeOf s, 1)
decreasing_by
  · apply Prod.Lex.left
    exact Nat.lt_of_le_of_lt (sizeOf_dropDoc_le _) (by simp_arith)
  · apply Prod.Lex.left
    exact Nat.lt_of_le_of_lt (sizeOf_dropDoc_le _) (by simp_arith)
theorem transformList_idem (l : PyBlock) : transformList (transformList l) = transformList l := by
  cases l with
  | nil => rw [transformList_nil, transformList_nil]
  | cons s rest =>
    rw [transformList_cons, transformList_cons, transformStmt_idem s, transformList_idem rest]
termination_by (sizeOf l, 0)
decreasing_by
  · apply Prod.Lex.left; simp_arith
  · apply Prod.Lex.left; simp_arith
end

theorem transformBody_idem (b : PyBlock) : transformBody (transformBody b) = transformBody b := by
  rw [transformBody_eq, transformBody_eq, dropDoc_transformList, transformList_idem]

/-! ### Serializing the fragment to text -/

/-- Escape one character for a single-quoted string literal. -/
def escChar (c : Char) : List Char :=
  if c = '\\' then ['\\', '\\']
  else if c = '\'' then ['\\', '\'']
  else if c = '\n' then ['\\', 'n']
  else [c]

/-- Escape a character list for a single-quoted string literal. -/
def escapeChars : List Char → List Char
  | [] => []
  | c :: cs => escChar c ++ escapeChars cs

/-- Undo one escape character. -/
def unescChar (c : Char) : Option Char :=
  if c = '\\' then some '\\'
  else if c = '\'' then some '\''
  else if c = 'n' then some '\n'
  else none

mutual
/-- Scan a single-quoted string literal body up to its closing quote. -/
def scanStr : List Char → Option (List Char × List Char)
  | [] => none
  | c :: rest =>
    if c = '\'' then some ([], rest)
    else if c = '\\' then scanStrEsc rest
    else (scanStr rest).map (fun sr => (c :: sr.1, sr.2))
/-- Scan the character following a backslash, then the remainder. -/
def scanStrEsc : List Char → Option (List Char × List Char)
  | [] => none
  | e :: rest2 =>
    match unescChar e, scanStr rest2 with
    | some u, some sr => some (u :: sr.1, sr.2)
    | _, _ => none
end

/-- A logical line of the fragment: one token at one indentation depth. -/
inductive Tok where
  /-- A `pass` line. -/
  | passT
  /-- A bare constant line. -/
  | constT (c : PyConst)
  /-- A `def name():` or `async def name():` header line. -/
  | defT (isAsync : Bool) (name : Ident)
  /-- A `class name:` header line. -/
  | classT (name : Ident)
deriving DecidableEq, Repr

/-- Render one token as characters (canonical `ast.unparse`-style text). -/
def renderTok : Tok → List Char
  | .passT => "pass".data
  | .constT .noneC => "None".data
  | .constT (.str s) => '\'' :: (escapeChars s.data ++ ['\''])
  | .defT false n => "def ".data ++ n.val.data ++ "():".data
  | .defT true n => "async def ".data ++ n.val.data ++ "():".data
  | .classT n => "class ".data ++ n.val.data ++ ":".data

/-- Parse the identifier-and-suffix tail of a `def` header. -/
def parseDefTail (isAsync : Bool) (l : List Char) : Option Tok :=
  if h : identOk (String.mk (l.takeWhile isIdentChar)) = true then
    if l.dropWhile isIdentChar = "():".data then
      some (.defT isAsync ⟨String.mk (l.takeWhile isIdentChar), h⟩)
    else none
  else none

/-- Parse the identifier-and-suffix tail of a `class` header. -/
def parseClassTail (l : List Char) : Option Tok :=
  if h : identOk (String.mk (l.takeWhile isIdentChar)) = true then
    if l.dropWhile isIdentChar = ":".data then
      some (.classT ⟨String.mk (l.takeWhile isIdentChar), h⟩)
    else none
  else none

/-- Parse one logical line body into a token. -/
def parseTok (l : List Char) : Option Tok :=
  if l = "pass".data then some .passT
  else if l = "None".data then some (.constT .noneC)
  else if "def ".data.isPrefixOf l then parseDefTail false (l.drop 4)
  else if "async def ".data.isPrefixOf l then parseDefTail true (l.drop 10)
  else if "class ".data.isPrefixOf l then parseClassTail (l.drop 6)
  else if "'".data.isPrefixOf l then
    match scanStr (l.drop 1) with
    | some (s, []) => some (.constT (.str (String.mk s)))
    | _ => none
  else none

/-- Count the leading spaces of a physical line. -/
def countSpaces : List Char → Nat
  | [] => 0
  | c :: cs => if c = ' ' then countSpaces cs + 1 else 0

/-- Parse one physical line into indentation depth and token; indentation
must be a multiple of four spaces. -/
def parseLine (l : List Char) : Option (Nat × Tok) :=
  if countSpaces l % 4 == 0 then
    (parseTok (l.drop (countSpaces l))).map (fun t => (countSpaces l / 4, t))
  else none

/-- Render one logical line as a physical line. -/
def renderLine (dt : Nat × Tok) : List Char :=
  List.replicate (4 * dt.1) ' ' ++ renderTok dt.2

mutual
/-- Logical lines of a statement at depth `d`. -/
def stmtLines (d : Nat) : PyStmt → List (Nat × Tok)
  | .exprConst c => [(d, .constT c)]
  | .passStmt => [(d, .passT)]
  | .defStmt a n b => (d, .defT a n) :: blockLines (d + 1) b
  | .classStmt n b => (d, .classT n) :: blockLines (d + 1) b
/-- Logical lines of a block at depth `d`. -/
def blockLines (d : Nat) : PyBlock → List (Nat × Tok)
  | .nil => []
  | .cons s rest => stmtLines d s ++ blockLines d rest
end

mutual
/-- Parse one statement given its header token; a `def`/`class` requires a
nonempty indented block (as CPython does).  Returns the unconsumed lines.
The fuel argument only bounds the recursion; the top-level entry point passes
more fuel than any input can consume (three units per line suffice: each line
starts at most one statement, one body block and one continuation block). -/
def parseStmtF : Nat → Nat → Tok → List (Nat × Tok) → Option (PyStmt × List (Nat × Tok))
  | 0, _, _, _ => none
  | fuel + 1, d, t, ls =>
    match t with
    | .passT => some (.passStmt, ls)
    | .constT c => some (.exprConst c, ls)
    | .defT a n =>
      match parseBlockF fuel (d + 1) ls with
      | some (b, r) => if b = .nil then none else some (.defStmt a n b, r)
      | none => none
    | .classT n =>
      match parseBlockF fuel (d + 1) ls with
      | some (b, r) => if b = .nil then none else some (.classStmt n b, r)
      | none => none
/-- Parse a maximal run of statements at exactly depth `d`. -/
def parseBlockF : Nat → Nat → List (Nat × Tok) → Option (PyBlock × List (Nat × Tok))
  | 0, _, _ => none
  | fuel + 1, d, ls =>
    match ls with
    | [] => some (.nil, [])
    | (i, t) :: rest =>
      if i == d then
        match parseStmtF fuel d t rest with
        | some (s, r) =>
          match parseBlockF fuel d r with
          | some (b, r2) => some (.cons s b, r2)
          | none => none
        | none => none
      else some (.nil, (i, t) :: rest)
end

/-- Parse every physical line. -/
def mapLines : List (List Char) → Option (List (Nat × Tok))
  | [] => some []
  | l :: ls =>
    match parseLine l, mapLines ls with
    | some t, some ts => some (t :: ts)
    | _, _ => none

/-- Embedding of `ast.parse` for the fragment: split into physical lines
(a trailing newline is allowed), parse each line, then parse the module block. -/
def pyParse (source : String) : Option PyBlock :=
  match mapLines
      (if (splitOnChar '\n' source.data).getLast? == some ([] : List Char)
        then (splitOnChar '\n' source.data).dropLast
        else splitOnChar '\n' source.data) with
  | none => none
  | some tls =>
    match parseBlockF (3 * tls.length + 3) 0 tls with
    | some (b, []) => some b
    | _ => none

/-- Embedding of `ast.unparse` for the fragment: render every logical line
followed by a newline. -/
def pyUnparse (b : PyBlock) : String :=
  String.mk (((blockLines 0 b).map (fun l => renderLine l ++ ['\n'])).flatten)

/-- Embedding of `remove_comments_and_docstrings`; `none` models the
`SyntaxError` that `ast.parse` raises on input outside the grammar. -/
def remove_comments_and_docstrings (source : String) : Option String :=
  (pyParse source).map (fun tree => pyUnparse (transformList tree))

/-! ## Archive model and the document assembler -/

/-- A ZIP archive: the name list in native order, each name paired with the
bytes stored under it.  Directory entries are names ending in a slash. -/
abbrev Archive := List (String × List Nat)

/-- Python `zip_file.namelist()`: every stored name, in order, duplicates kept. -/
def namelist (ar : Archive) : List String := ar.map (fun e => e.1)

/-- Python `zip_file.read(name)`: the bytes of the last entry with that name
(`NameToInfo` is built by insertion, later entries overwriting earlier ones). -/
def zipRead (ar : Archive) (name : String) : List Nat :=
  match ar.reverse.find? (fun e => e.1 == name) with
  | some e => e.2
  | none => []

/-- Code-point comparison of character lists (Python string `<=`). -/
def charsLe : List Char → List Char → Bool
  | [], _ => true
  | _ :: _, [] => false
  | a :: as, b :: bs =>
    if a.toNat < b.toNat then true
    else if b.toNat < a.toNat then false
    else charsLe as bs

/-- Python string comparison `a <= b` (lexicographic by code point). -/
def strLeB (a b : String) : Bool := charsLe a.data b.data

/-- Insert into a sorted list (ascending, stable). -/
def insertSorted (a : String) : List String → List String
  | [] => [a]
  | b :: bs => if strLeB a b then a :: b :: bs else b :: insertSorted a bs

/-- Insertion sort by code-point order; on strings this computes exactly
Python's `sorted` (equal keys are identical strings, so stability is moot). -/
def sortNames : List String → List String
  | [] => []
  | a :: as => insertSorted a (sortNames as)

theorem insertSorted_perm (a : String) (l : List String) :
    (insertSorted a l).Perm (a :: l) := by
  induction l with
  | nil => rfl
  | cons b bs ih =>
    unfold insertSorted
    split
    · exact List.Perm.refl _
    · exact ((ih.cons b).trans (List.Perm.swap a b bs))

theorem sortNames_perm (l : List String) : (sortNames l).Perm l := by
  induction l with
  | nil => rfl
  | cons a as ih =>
    exact (insertSorted_perm a (sortNames as)).trans (ih.cons a)

/-- Python `sorted(zip_file.namelist())`. -/
def sortedNames (ar : Archive) : List String := sortNames (namelist ar)

/-- Whether a name matches the first README search (`*/README.md` or root `README.md`). -/
def isReadmeMdName (p : String) : Bool := strEndsWith p "/README.md" || p == "README.md"

/-- Whether a name matches the fallback README search (`*/README` or root `README`). -/
def isReadmePlainName (p : String) : Bool := strEndsWith p "/README" || p == "README"

/-- The placeholder content used when no README is found. -/
def noReadmePlaceholder : String := "No README file found in the repository."

/-- Embedding of `find_readme_content`: the first `README.md` match is read;
if its decoded content is empty (or there is no match) the first plain
`README` match is read; if the content is still empty the placeholder is
substituted, the path keeping its last assigned value. -/
def findReadmeContent (ar : Archive) : String × String :=
  let s1 : String × String :=
    match (namelist ar).find? isReadmeMdName with
    | some p => (p, decodeReplace (zipRead ar p))
    | none => ("", "")
  let s2 : String × String :=
    if s1.2 == "" then
      match (namelist ar).find? isReadmePlainName with
      | some p => (p, decodeReplace (zipRead ar p))
      | none => s1
    else s1
  if s2.2 == "" then (s2.1, noReadmePlaceholder) else s2

/-- The configuration of one `process_repository_files` run. -/
structure Config where
  /-- The `lang` argument. -/
  lang : String
  /-- The `keep_comments` flag. -/
  keepComments : Bool
  /-- The `claude` flag (structured mode). -/
  claude : Bool
  /-- The `include_all` flag. -/
  includeAll : Bool
deriving DecidableEq, Repr

/-- The `should_include` expression; `none` models the `KeyError` that
`is_file_type` raises for a language outside the table (caught by the
per-entry handler).  `include_all` short-circuits before the lookup. -/
def shouldInclude? (cfg : Config) (name content : String) : Option Bool :=
  if cfg.includeAll then some true
  else
    match is_file_type? name cfg.lang with
    | none => none
    | some ft =>
      some (ft && is_likely_useful_file name cfg.lang
        && !is_test_file content cfg.lang
        && has_sufficient_content content 10)

/-- One manifest row: path, description, optional linked document index. -/
abbrev ManifestEntry := String × String × Option Nat

/-- The per-entry body of the first pass: classify one name, producing its
manifest row and, when included, its decoded content. -/
def processEntry (ar : Archive) (cfg : Config) (name : String) (idx : Nat) :
    ManifestEntry × Option (String × String) :=
  if is_binary_file ((zipRead ar name).take 1024) then ((name, "Binary file", none), none)
  else
    match shouldInclude? cfg name (decodeReplace (zipRead ar name)) with
    | none => ((name, "Error processing file", none), none)
    | some true =>
      ((name, "Source file", some idx), some (name, decodeReplace (zipRead ar name)))
    | some false => ((name, "Excluded file", none), none)

/-- The first pass of `process_repository_files`: walk the sorted names,
skip directories, classify each file, and thread the next document index
(starting from 2; 0 is the README, 1 the manifest). -/
def classifyLoop (ar : Archive) (cfg : Config) :
    List String → Nat → List ManifestEntry × List (String × String)
  | [], _ => ([], [])
  | name :: rest, idx =>
    if strEndsWith name "/" then classifyLoop ar cfg rest idx
    else
      match processEntry ar cfg name idx with
      | (me, none) =>
        let r := classifyLoop ar cfg rest idx
        (me :: r.1, r.2)
      | (me, some pc) =>
        let r := classifyLoop ar cfg rest (idx + 1)
        (me :: r.1, pc :: r.2)

/-- The manifest rows of a run. -/
def manifestEntries (ar : Archive) (cfg : Config) : List ManifestEntry :=
  (classifyLoop ar cfg (sortedNames ar) 2).1

/-- The included files of a run (path and decoded content, in emission order). -/
def includedFiles (ar : Archive) (cfg : Config) : List (String × String) :=
  (classifyLoop ar cfg (sortedNames ar) 2).2

/-- The path-shortening `while` loop of `format_manifest_line`. -/
def truncLoop (dp : String) (parts : List String) : String :=
  if dp.length > 50 ∧ parts.length > 2 then
    truncLoop (".../" ++ String.intercalate "/" (parts.drop 1)) (parts.drop 1)
  else dp
termination_by parts.length
decreasing_by
  simp only [List.length_drop]
  omega

/-- Embedding of `format_manifest_line` (default `max_path_len = 50`). -/
def format_manifest_line (e : ManifestEntry) : String :=
  let dp := if e.1.length > 50 then truncLoop e.1 (strSplit '/' e.1) else e.1
  let padded := ljust dp 50
  let link :=
    match e.2.2 with
    | some i => "<link target=\"" ++ toString i ++ "\">" ++ e.1 ++ "</link>"
    | none => "<skipped>" ++ e.1 ++ "</skipped>"
  padded ++ "  " ++ e.2.1 ++ "  " ++ link

/-- The manifest document's content. -/
def manifestContent (ar : Archive) (cfg : Config) : String :=
  "<manifest>\n# Repository Contents:\n"
    ++ String.join ((manifestEntries ar cfg).map (fun e => format_manifest_line e ++ "\n"))
    ++ "</manifest>"

/-- The write-phase index lookup
`next(entry[2] for entry in manifest_entries if entry[0] == file_path)`:
the linked index of the first manifest row whose path matches. -/
def docIndexFor (ms : List ManifestEntry) (path : String) : Option Nat :=
  match ms.find? (fun e => e.1 == path) with
  | some e => e.2.2
  | none => none

/-- The write-phase normalization: Python files are stripped of comments and
docstrings unless `keep_comments`; a parse failure keeps the original content. -/
def normalizeForOutput (cfg : Config) (path content : String) : String :=
  if cfg.lang == "python" && !cfg.keepComments && strEndsWith path ".py" then
    match remove_comments_and_docstrings content with
    | some c => c
    | none => content
  else content

/-- One emitted document: its printed index (in structured mode), source and content. -/
abbrev EmittedDoc := Option Nat × String × String

/-- The classified source documents, in emission order. -/
def sourceDocs (ar : Archive) (cfg : Config) : List EmittedDoc :=
  (includedFiles ar cfg).map (fun pc =>
    (docIndexFor (manifestEntries ar cfg) pc.1, pc.1, normalizeForOutput cfg pc.1 pc.2))

/-- The full document sequence of a structured-mode run: README at 0, the
manifest at 1, then the classified source documents. -/
def emittedDocs (ar : Archive) (cfg : Config) : List EmittedDoc :=
  (some 0, (findReadmeContent ar).1, (findReadmeContent ar).2)
    :: (some 1, "manifest.txt", manifestContent ar cfg)
    :: sourceDocs ar cfg

/-- Render one document in structured (claude) mode. -/
def renderDocClaude (d : EmittedDoc) : String :=
  "<document index=\"" ++ (match d.1 with | some i => toString i | none => "None")
    ++ "\">\n<source>" ++ d.2.1 ++ "</source>\n<document_content>\n" ++ d.2.2
    ++ "\n</document_content>\n</document>\n\n"

/-- Render one source document in plain mode. -/
def renderDocPlain (lang : String) (d : EmittedDoc) : String :=
  (if lang == "go" then "// " else "# ") ++ "File: " ++ d.2.1 ++ "\n" ++ d.2.2 ++ "\n\n"

/-- Embedding of `process_repository_files`: the full artifact text of one run. -/
def process_repository_files (ar : Archive) (cfg : Config) : String :=
  if cfg.claude then
    "Here are some documents for you to reference for your task:\n\n<documents>\n"
      ++ String.join ((emittedDocs ar cfg).map renderDocClaude)
      ++ "</documents>"
  else
    renderDocPlain cfg.lang (some 0, (findReadmeContent ar).1, (findReadmeContent ar).2)
      ++ ("# File: manifest.txt\n" ++ manifestContent ar cfg ++ "\n\n")
      ++ String.join ((sourceDocs ar cfg).map (renderDocPlain cfg.lang))

/-! ## Claim C2: determinism of the assembly -/

/-- Claim C2 (confirmed): for every fixed pair of archive byte content and
configuration (language, keep_comments, claude mode, include_all), two runs of
the document assembly produce byte-identical artifact text.  The embedding
makes the assembly a function of exactly these two inputs, so equal inputs
give equal artifacts. -/
theorem c2_determinism (ar1 ar2 : Archive) (cfg1 cfg2 : Config)
    (har : ar1 = ar2) (hcfg : cfg1 = cfg2) :
    process_repository_files ar1 cfg1 = process_repository_files ar2 cfg2 := by
  subst har; subst hcfg; rfl

/-- Witness for C2 at a concrete archive and configuration. -/
theorem c2_determinism_witness :
    process_repository_files [("a.py", [97])] ⟨"python", false, true, true⟩ =
      process_repository_files [("a.py", [97])] ⟨"python", false, true, true⟩ :=
  c2_determinism [("a.py", [97])] [("a.py", [97])]
    ⟨"python", false, true, true⟩ ⟨"python", false, true, true⟩ rfl rfl

/-! ## Claim C5: reference resolution -/

/-- Claim C5 counterexample: when the transport raises (for example a
connection error) the resolver does not return "main": requesting "master"
under a transport error keeps "master", so the claim's "on any transport or
parse failure it returns main" is false on the code. -/
theorem c5_counterexample :
    resolveRef "master" BranchesResponse.transportError = "master" ∧
      "master" ≠ "main" := by
  constructor
  · rfl
  · decide

/-- Claim C5 (corrected): a ref other than the two defaults is returned
unchanged; for "main"/"master", a non-200 status, an unparsable or non-list
JSON body, a missing `name` key, or an unknown branch set resolves to "main",
and a successful listing prefers "main", then "master"; but a raised transport
error (or a `TypeError` from a non-object list element) escapes the resolver
and the caller falls back to the originally requested ref, not to "main". -/
theorem c5_amended :
    (∀ (r : String) (resp : BranchesResponse),
        r ≠ "main" → r ≠ "master" → resolveRef r resp = r)
  ∧ (∀ (status : Nat) (body : BranchesBody), status ≠ 200 →
        check_default_branches (.httpResp status body) = .ok "main")
  ∧ (check_default_branches (.httpResp 200 .invalidJson) = .ok "main"
      ∧ check_default_branches (.httpResp 200 .jsonOther) = .ok "main")
  ∧ (∀ (items : List JsonItem) (names : List String), collectNames items = .ok names →
        check_default_branches (.httpResp 200 (.jsonList items)) =
          .ok (if names.contains "main" then "main"
               else if names.contains "master" then "master" else "main"))
  ∧ (∀ (items : List JsonItem), collectNames items = .error true →
        check_default_branches (.httpResp 200 (.jsonList items)) = .ok "main")
  ∧ (∀ (r : String) (resp : BranchesResponse), check_default_branches resp = .error () →
        resolveRef r resp = r) := by
  refine ⟨?_, ?_, ⟨rfl, rfl⟩, ?_, ?_, ?_⟩
  · intro r resp h1 h2
    simp [resolveRef, h1, h2]
  · intro status body h
    simp [check_default_branches, h]
  · intro items names h
    simp only [check_default_branches, h]
    split <;> split_ifs <;> simp_all
  · intro items h
    simp [check_default_branches, h]
  · intro r resp h
    simp [resolveRef, h]

/-- Witness for C5's amended statement at concrete inputs. -/
theorem c5_amended_witness :
    resolveRef "dev" BranchesResponse.transportError = "dev"
  ∧ check_default_branches (.httpResp 500 .invalidJson) = .ok "main"
  ∧ check_default_branches (.httpResp 200 (.jsonList [.obj "x", .obj "master"])) = .ok "master"
  ∧ resolveRef "main" BranchesResponse.transportError = "main" := by
  refine ⟨?_, ?_, ?_, ?_⟩
  · exact c5_amended.1 "dev" _ (by decide) (by decide)
  · exact c5_amended.2.1 500 _ (by decide)
  · have h := c5_amended.2.2.2.1 [.obj "x", .obj "master"] ["x", "master"] rfl
    simpa using h
  · exact c5_amended.2.2.2.2.2 "main" _ rfl

/-! ## Claim C7: the extension rule -/

/-- Claim C7 counterexample: there is no "all" pseudo-category (the table
lookup fails for it) and a file named `Makefile` is rejected for every
language of the public interface. -/
theorem c7_counterexample :
    is_file_type? "Makefile" "python" = some false
  ∧ is_file_type? "Makefile" "go" = some false
  ∧ is_file_type? "Makefile" "md" = some false
  ∧ getLanguageExtensions? "all" = none := by decide

/-- Helper: the extension table takes only five values. -/
theorem getLanguageExtensions_cases (language : String) (exts : List String)
    (h : getLanguageExtensions? language = some exts) :
    exts = [".py", ".pyw"] ∨ exts = [".go"] ∨ exts = [".js", ".jsx", ".ts", ".tsx"]
      ∨ exts = [".java"] ∨ exts = [".md"] := by
  unfold getLanguageExtensions? at h
  split at h <;> simp_all

/-- Claim C7 (corrected): a file passes the extension rule iff its path ends
with one of the configured language's extensions from the fixed five-language
table; the lookup is defined for every language of the public interface
(go, python, md); but there is no "all" pseudo-category — its lookup raises —
and no extensionless build file is accepted: `Makefile` fails the rule for
every language in the table. -/
theorem c7_amended :
    (∀ (file_path language : String) (exts : List String),
        getLanguageExtensions? language = some exts →
        (is_file_type? file_path language = some true ↔
          ∃ ext ∈ exts, strEndsWith file_path ext = true))
  ∧ (∀ lang ∈ ["go", "python", "md"], (getLanguageExtensions? lang).isSome = true)
  ∧ getLanguageExtensions? "all" = none
  ∧ (∀ (language : String) (exts : List String),
        getLanguageExtensions? language = some exts →
        is_file_type? "Makefile" language = some false) := by
  refine ⟨?_, ?_, by decide, ?_⟩
  · intro fp language exts h
    simp [is_file_type?, h, List.any_eq_true]
  · intro lang hl
    simp only [List.mem_cons, List.not_mem_nil, or_false] at hl
    rcases hl with h | h | h <;> subst h <;> decide
  · intro language exts h
    have hc := getLanguageExtensions_cases language exts h
    simp only [is_file_type?, h, Option.map_some]
    rcases hc with h' | h' | h' | h' | h' <;> subst h' <;> decide

/-- Witness for C7's amended statement at concrete inputs. -/
theorem c7_amended_witness :
    (is_file_type? "a.py" "python" = some true ↔
      ∃ ext ∈ [".py", ".pyw"], strEndsWith "a.py" ext = true)
  ∧ (getLanguageExtensions? "md").isSome = true
  ∧ is_file_type? "Makefile" "java" = some false := by
  refine ⟨?_, ?_, ?_⟩
  · exact c7_amended.1 "a.py" "python" [".py", ".pyw"] rfl
  · exact c7_amended.2.1 "md" (by decide)
  · exact c7_amended.2.2.2 "java" [".java"] rfl

/-! ## Structural lemmas about the classification loop -/

/-- Characterize a per-entry step that included the file. -/
theorem processEntry_some (ar : Archive) (cfg : Config) (name : String) (idx : Nat)
    (me : ManifestEntry) (pc : String × String)
    (h : processEntry ar cfg name idx = (me, some pc)) :
    me = (name, "Source file", some idx)
    ∧ pc = (name, decodeReplace (zipRead ar name))
    ∧ is_binary_file ((zipRead ar name).take 1024) = false
    ∧ shouldInclude? cfg name (decodeReplace (zipRead ar name)) = some true := by
  unfold processEntry at h
  split at h
  · simp at h
  · rename_i hb
    split at h
    · simp at h
    · rename_i heq
      simp only [Prod.mk.injEq, Option.some.injEq] at h
      exact ⟨h.1.symm, h.2.symm, by simpa using hb, heq⟩
    · simp at h

/-- Characterize a per-entry step that did not include the file. -/
theorem processEntry_none (ar : Archive) (cfg : Config) (name : String) (idx : Nat)
    (me : ManifestEntry)
    (h : processEntry ar cfg name idx = (me, none)) :
    me.1 = name ∧ me.2.2 = none := by
  unfold processEntry at h
  split at h
  · simp only [Prod.mk.injEq] at h
    rw [← h.1]
    exact ⟨rfl, rfl⟩
  · split at h
    · simp only [Prod.mk.injEq] at h
      rw [← h.1]; exact ⟨rfl, rfl⟩
    · simp at h
    · simp only [Prod.mk.injEq] at h
      rw [← h.1]; exact ⟨rfl, rfl⟩

/-- A binary entry always produces a `Binary file` row. -/
theorem processEntry_binary (ar : Archive) (cfg : Config) (name : String) (idx : Nat)
    (hb : is_binary_file ((zipRead ar name).take 1024) = true) :
    processEntry ar cfg name idx = ((name, "Binary file", none), none) := by
  unfold processEntry
  rw [if_pos hb]

/-- Every included pair comes from a name of the walked list, is not a
directory, is non-binary, carries the decoded bytes of its name, and was
accepted by `should_include`. -/
theorem mem_includedFiles_spec (ar : Archive) (cfg : Config) :
    ∀ (names : List String) (idx : Nat) (p c : String),
      (p, c) ∈ (classifyLoop ar cfg names idx).2 →
      p ∈ names ∧ strEndsWith p "/" = false
      ∧ is_binary_file ((zipRead ar p).take 1024) = false
      ∧ c = decodeReplace (zipRead ar p)
      ∧ shouldInclude? cfg p c = some true := by
  intro names
  induction names with
  | nil => intro idx p c h; simp [classifyLoop] at h
  | cons name rest ih =>
    intro idx p c h
    rw [classifyLoop] at h
    cases hd : strEndsWith name "/" with
    | true =>
      rw [if_pos hd] at h
      have := ih idx p c h
      exact ⟨List.mem_cons_of_mem _ this.1, this.2⟩
    | false =>
      rw [if_neg (by simp [hd])] at h
      rcases hpe : processEntry ar cfg name idx with ⟨me, inc?⟩
      rw [hpe] at h
      cases inc? with
      | none =>
        have := ih idx p c h
        exact ⟨List.mem_cons_of_mem _ this.1, this.2⟩
      | some pc0 =>
        rcases List.mem_cons.1 h with h1 | h1
        · have hs := processEntry_some ar cfg name idx me pc0 hpe
          have hpc : (p, c) = (name, decodeReplace (zipRead ar name)) := by
            rw [← hs.2.1, h1]
          simp only [Prod.mk.injEq] at hpc
          refine ⟨by rw [hpc.1]; exact List.mem_cons_self _ _, ?_, ?_, ?_, ?_⟩
          · rw [hpc.1]; exact hd
          · rw [hpc.1]; exact hs.2.2.1
          · rw [hpc.1, hpc.2]
          · rw [hpc.1, hpc.2]; exact hs.2.2.2
        · have := ih (idx + 1) p c h1
          exact ⟨List.mem_cons_of_mem _ this.1, this.2⟩

/-- A non-directory name whose sample is binary gets a `Binary file` manifest
row with no link. -/
theorem binary_manifest_row (ar : Archive) (cfg : Config) :
    ∀ (names : List String) (idx : Nat) (name : String),
      name ∈ names → strEndsWith name "/" = false →
      is_binary_file ((zipRead ar name).take 1024) = true →
      (name, "Binary file", (none : Option Nat)) ∈ (classifyLoop ar cfg names idx).1 := by
  intro names
  induction names with
  | nil => intro idx name h; simp at h
  | cons n rest ih =>
    intro idx name hmem hnd hbin
    rw [classifyLoop]
    rcases List.mem_cons.1 hmem with h | h
    · subst h
      rw [if_neg (by simp [hnd]), processEntry_binary ar cfg name idx hbin]
      exact List.mem_cons_self _ _
    · cases hd : strEndsWith n "/" with
      | true => rw [if_pos rfl]; exact ih idx name h hnd hbin
      | false =>
        rw [if_neg (by simp)]
        rcases hpe : processEntry ar cfg n idx with ⟨me, inc?⟩
        cases inc? with
        | none => exact List.mem_cons_of_mem _ (ih idx name h hnd hbin)
        | some pc0 => exact List.mem_cons_of_mem _ (ih (idx + 1) name h hnd hbin)

/-- The manifest has one row per non-directory name, in order. -/
theorem classifyLoop_paths (ar : Archive) (cfg : Config) :
    ∀ (names : List String) (idx : Nat),
      ((classifyLoop ar cfg names idx).1).map (fun e => e.1) =
        names.filter (fun n => !(strEndsWith n "/")) := by
  intro names
  induction names with
  | nil => intro idx; simp [classifyLoop]
  | cons n rest ih =>
    intro idx
    rw [classifyLoop]
    cases hd : strEndsWith n "/" with
    | true =>
      rw [if_pos rfl, List.filter_cons]
      rw [hd]
      simp only [Bool.not_true, Bool.false_eq_true, if_false]
      exact ih idx
    | false =>
      rcases hpe : processEntry ar cfg n idx with ⟨me, inc?⟩
      rw [if_neg (by simp)]
      have hme1 : me.1 = n := by
        cases inc? with
        | none => exact (processEntry_none ar cfg n idx me hpe).1
        | some pc0 => rw [(processEntry_some ar cfg n idx me pc0 hpe).1]
      cases inc? with
      | none =>
        show List.map (fun e => e.1) (me :: (classifyLoop ar cfg rest idx).1) = _
        rw [List.map_cons, hme1, ih idx, List.filter_cons]
        rw [hd]
        simp
      | some pc0 =>
        show List.map (fun e => e.1) (me :: (classifyLoop ar cfg rest (idx + 1)).1) = _
        rw [List.map_cons, hme1, ih (idx + 1), List.filter_cons]
        rw [hd]
        simp

/-- A name accepted by `should_include` (non-directory, non-binary) lands in
the included list with its decoded content. -/
theorem includedFiles_mem_of (ar : Archive) (cfg : Config) :
    ∀ (names : List String) (idx : Nat) (name : String),
      name ∈ names → strEndsWith name "/" = false →
      is_binary_file ((zipRead ar name).take 1024) = false →
      shouldInclude? cfg name (decodeReplace (zipRead ar name)) = some true →
      (name, decodeReplace (zipRead ar name)) ∈ (classifyLoop ar cfg names idx).2 := by
  intro names
  induction names with
  | nil => intro idx name h; simp at h
  | cons n rest ih =>
    intro idx name hmem hnd hbin hinc
    rw [classifyLoop]
    rcases List.mem_cons.1 hmem with h | h
    · subst h
      rw [if_neg (by simp [hnd])]
      have hpe : processEntry ar cfg name idx =
          ((name, "Source file", some idx), some (name, decodeReplace (zipRead ar name))) := by
        unfold processEntry
        rw [if_neg (by simp [hbin]), hinc]
      rw [hpe]
      exact List.mem_cons_self _ _
    · cases hd : strEndsWith n "/" with
      | true => rw [if_pos rfl]; exact ih idx name h hnd hbin hinc
      | false =>
        rw [if_neg (by simp)]
        rcases hpe : processEntry ar cfg n idx with ⟨me, inc?⟩
        cases inc? with
        | none => exact ih idx name h hnd hbin hinc
        | some pc0 => exact List.mem_cons_of_mem _ (ih (idx + 1) name h hnd hbin hinc)

/-- The sorted walk is a permutation of the name list. -/
theorem sortedNames_perm (ar : Archive) : (sortedNames ar).Perm (namelist ar) :=
  sortNames_perm (namelist ar)

/-- Membership transfer into the sorted walk. -/
theorem mem_sortedNames (ar : Archive) (name : String) (h : name ∈ namelist ar) :
    name ∈ sortedNames ar := ((sortedNames_perm ar).mem_iff).2 h

/-! ## Claim C6: exclusion precedence -/

/-- Claim C6 (confirmed): a non-binary path containing an excluded-directory
segment for the configured language fails `is_likely_useful_file` even when it
carries a valid extension, and with the include-all override inactive it is
never among the included documents. -/
theorem c6_exclusion (ar : Archive) (cfg : Config) (path : String)
    (hall : cfg.includeAll = false)
    (hseg : ∃ d ∈ excludedDirsFor cfg.lang,
      strContainsSub path ("/" ++ d ++ "/") = true ∨ strStartsWith path (d ++ "/") = true)
    (hext : is_file_type? path cfg.lang = some true) :
    is_likely_useful_file path cfg.lang = false
    ∧ ∀ c, (path, c) ∉ includedFiles ar cfg := by
  have h3 : (excludedDirsFor cfg.lang).any
      (fun d => strContainsSub path ("/" ++ d ++ "/") || strStartsWith path (d ++ "/")) = true := by
    rcases hseg with ⟨d, hd, h⟩
    refine List.any_eq_true.2 ⟨d, hd, ?_⟩
    rcases h with h | h
    · simp [h]
    · simp [h]
  have huseful : is_likely_useful_file path cfg.lang = false := by
    unfold is_likely_useful_file
    rw [h3]
    simp
  refine ⟨huseful, ?_⟩
  intro c hc
  have hspec := mem_includedFiles_spec ar cfg (sortedNames ar) 2 path c hc
  have hinc := hspec.2.2.2.2
  unfold shouldInclude? at hinc
  rw [if_neg (by simp [hall])] at hinc
  rw [hext] at hinc
  simp only [Option.some.injEq] at hinc
  rw [huseful] at hinc
  simp at hinc

/-- Witness for C6 at a concrete archive, path and configuration. -/
theorem c6_exclusion_witness :
    is_likely_useful_file "tests/calc.py" "python" = false
    ∧ ∀ c, ("tests/calc.py", c) ∉
        includedFiles [("tests/calc.py", [97])] ⟨"python", false, false, false⟩ :=
  c6_exclusion [("tests/calc.py", [97])] ⟨"python", false, false, false⟩ "tests/calc.py"
    rfl ⟨"tests", by decide, Or.inr (by decide)⟩ (by decide)

/-! ## Claim C3: binary safety -/

/-- Claim C3 counterexample: an archive whose only entry is a `README.md`
containing a NUL byte.  The entry is classified binary and gets a linkless
manifest row, yet the README search ignores the binary classification and its
decoded content is emitted as document 0 — so "its content is never emitted as
document content" is false on the code. -/
theorem c3_counterexample :
    is_binary_file ((zipRead [("README.md", [0, 104, 105])] "README.md").take 1024) = true
  ∧ ("README.md", "Binary file", (none : Option Nat)) ∈
      manifestEntries [("README.md", [0, 104, 105])] ⟨"python", true, true, true⟩
  ∧ (some 0, "README.md", decodeReplace [0, 104, 105]) ∈
      emittedDocs [("README.md", [0, 104, 105])] ⟨"python", true, true, true⟩ := by
  refine ⟨by decide, by decide, by decide⟩

/-- Claim C3 (corrected): a non-directory name whose first-KB sample fails
strict UTF-8 decoding, or decodes with a NUL character, is recorded in the
manifest as `Binary file` with no linked index, and is never the source of a
classified source document (the documents at indices 2 and above), even with
the include-all override; the one remaining leak is the README document at
index 0, which is selected by name only and may carry a binary entry's
replace-decoded content. -/
theorem c3_amended (ar : Archive) (cfg : Config) (name : String)
    (hmem : name ∈ namelist ar) (hnd : strEndsWith name "/" = false)
    (hbin : utf8Decode ((zipRead ar name).take 1024) = none ∨
      ∃ cs, utf8Decode ((zipRead ar name).take 1024) = some cs ∧ nulChar ∈ cs) :
    (name, "Binary file", (none : Option Nat)) ∈ manifestEntries ar cfg
    ∧ (∀ c, (name, c) ∉ includedFiles ar cfg)
    ∧ (∀ d ∈ sourceDocs ar cfg, d.2.1 ≠ name) := by
  have hb : is_binary_file ((zipRead ar name).take 1024) = true := by
    unfold is_binary_file
    rcases hbin with h | ⟨cs, h, hc⟩
    · rw [h]
    · rw [h]
      exact List.elem_iff.2 hc
  refine ⟨?_, ?_, ?_⟩
  · exact binary_manifest_row ar cfg (sortedNames ar) 2 name
      (mem_sortedNames ar name hmem) hnd hb
  · intro c hc
    have := (mem_includedFiles_spec ar cfg (sortedNames ar) 2 name c hc).2.2.1
    rw [hb] at this
    cases this
  · intro d hd heq
    unfold sourceDocs at hd
    rcases List.mem_map.1 hd with ⟨pc, hpc, hdd⟩
    have hp1 : pc.1 = name := by rw [← heq, ← hdd]
    have := (mem_includedFiles_spec ar cfg (sortedNames ar) 2 pc.1 pc.2
      (by simpa using hpc)).2.2.1
    rw [hp1, hb] at this
    cases this

/-- Witness for C3's amended statement at a concrete binary entry. -/
theorem c3_amended_witness :
    ("img.png", "Binary file", (none : Option Nat)) ∈
      manifestEntries [("img.png", [0, 1, 2])] ⟨"python", false, true, true⟩ :=
  (c3_amended [("img.png", [0, 1, 2])] ⟨"python", false, true, true⟩ "img.png"
    (by decide) (by decide)
    (Or.inr ⟨[Char.ofNat 0, Char.ofNat 1, Char.ofNat 2], by decide, by decide⟩)).1

/-! ## Claim C9: README selection -/

/-- Claim C9 counterexample: an archive whose only entry is an empty
`README.md`.  Its (empty) content is not used — the run falls through to the
placeholder — and the placeholder text is "No README file found in the
repository.", not the claim's verbatim "No README file found". -/
theorem c9_counterexample :
    (findReadmeContent [("README.md", [])]).2 = noReadmePlaceholder
  ∧ noReadmePlaceholder ≠ "No README file found"
  ∧ (findReadmeContent [("README.md", [])]).2 ≠
      decodeReplace (zipRead [("README.md", [])] "README.md") := by
  refine ⟨by decide, by decide, by decide⟩

/-- Claim C9 (corrected): the README document is always emitted first (index 0
in structured mode); if the first name matching `*/README.md` or `README.md`
has non-empty replace-decoded content, that content is used; otherwise, if the
first name matching `*/README` or `README` has non-empty decoded content, that
content is used; otherwise the placeholder "No README file found in the
repository." is used, the source path keeping the last matched name. -/
theorem c9_amended (ar : Archive) (cfg : Config) :
    ((emittedDocs ar cfg).head? =
      some (some 0, (findReadmeContent ar).1, (findReadmeContent ar).2))
  ∧ (∀ p, (namelist ar).find? isReadmeMdName = some p →
      decodeReplace (zipRead ar p) ≠ "" →
      findReadmeContent ar = (p, decodeReplace (zipRead ar p)))
  ∧ (∀ p, ((namelist ar).find? isReadmeMdName = none ∨
        (∃ p1, (namelist ar).find? isReadmeMdName = some p1 ∧
          decodeReplace (zipRead ar p1) = "")) →
      (namelist ar).find? isReadmePlainName = some p →
      decodeReplace (zipRead ar p) ≠ "" →
      (findReadmeContent ar).2 = decodeReplace (zipRead ar p))
  ∧ (((namelist ar).find? isReadmeMdName = none ∨
        (∃ p1, (namelist ar).find? isReadmeMdName = some p1 ∧
          decodeReplace (zipRead ar p1) = "")) →
      ((namelist ar).find? isReadmePlainName = none ∨
        (∃ p2, (namelist ar).find? isReadmePlainName = some p2 ∧
          decodeReplace (zipRead ar p2) = "")) →
      (findReadmeContent ar).2 = noReadmePlaceholder) := by
  refine ⟨rfl, ?_, ?_, ?_⟩
  · intro p hfind hne
    unfold findReadmeContent
    rw [hfind]
    simp [hne]
  · intro p hmd hfind hne
    unfold findReadmeContent
    rcases hmd with h | ⟨p1, h, he⟩
    · rw [h, hfind]
      simp [hne]
    · rw [h, hfind]
      simp [he, hne]
  · intro hmd hpl
    unfold findReadmeContent
    rcases hmd with h | ⟨p1, h, he⟩
    · rcases hpl with h2 | ⟨p2, h2, he2⟩
      · simp [h, h2]
      · simp [h, h2, he2]
    · rcases hpl with h2 | ⟨p2, h2, he2⟩
      · simp [h, h2, he]
      · simp [h, h2, he, he2]

/-- Witness for C9's amended statement: the three branches of the fallback
chain at concrete archives. -/
theorem c9_amended_witness :
    findReadmeContent [("README.md", [104])] = ("README.md", "h")
  ∧ (findReadmeContent [("README", [104, 105])]).2 = "hi"
  ∧ (findReadmeContent ([] : Archive)).2 = noReadmePlaceholder := by
  refine ⟨?_, ?_, ?_⟩
  · exact (c9_amended [("README.md", [104])] ⟨"python", true, true, true⟩).2.1
      "README.md" (by decide) (by decide)
  · exact (c9_amended [("README", [104, 105])] ⟨"python", true, true, true⟩).2.2.1
      "README" (Or.inl (by decide)) (by decide) (by decide)
  · exact (c9_amended ([] : Archive) ⟨"python", true, true, true⟩).2.2.2
      (Or.inl (by decide)) (Or.inl (by decide))

/-! ## Claim C1: manifest-index correctness -/

/-- The linked rows of a manifest: path and linked index of every row with a link. -/
def linkedPairs (ms : List ManifestEntry) : List (String × Nat) :=
  ms.filterMap (fun e => match e.2.2 with | some k => some (e.1, k) | none => none)

/-- The linked rows of the classification pass are exactly the included paths
paired with consecutive indices starting at the threaded counter. -/
theorem classifyLoop_linked (ar : Archive) (cfg : Config) :
    ∀ (names : List String) (idx : Nat),
      linkedPairs (classifyLoop ar cfg names idx).1 =
        List.zip ((classifyLoop ar cfg names idx).2.map (fun e => e.1))
          (List.range' idx (classifyLoop ar cfg names idx).2.length) := by
  intro names
  induction names with
  | nil => intro idx; simp [classifyLoop, linkedPairs]
  | cons n rest ih =>
    intro idx
    rw [classifyLoop]
    cases hd : strEndsWith n "/" with
    | true => rw [if_pos rfl]; exact ih idx
    | false =>
      rcases hpe : processEntry ar cfg n idx with ⟨me, inc?⟩
      rw [if_neg (by simp)]
      cases inc? with
      | none =>
        have hn := processEntry_none ar cfg n idx me hpe
        show linkedPairs (me :: (classifyLoop ar cfg rest idx).1) = _
        unfold linkedPairs
        rw [List.filterMap_cons]
        rw [show (match me.2.2 with
            | some k => some (me.1, k) | none => none) = (none : Option (String × Nat)) by
          rw [hn.2]]
        exact ih idx
      | some pc0 =>
        have hs := processEntry_some ar cfg n idx me pc0 hpe
        show linkedPairs (me :: (classifyLoop ar cfg rest (idx + 1)).1) =
          List.zip ((pc0 :: (classifyLoop ar cfg rest (idx + 1)).2).map (fun e => e.1))
            (List.range' idx (pc0 :: (classifyLoop ar cfg rest (idx + 1)).2).length)
        unfold linkedPairs
        rw [List.filterMap_cons]
        rw [show (match me.2.2 with
            | some k => some (me.1, k) | none => none) = some (n, idx) by
          rw [hs.1]]
        rw [List.map_cons, List.length_cons, List.range'_succ, List.zip_cons_cons]
        rw [show pc0.1 = n by rw [hs.2.1]]
        exact congrArg _ (ih (idx + 1))

/-- In a manifest whose paths are distinct, `find?` on a row's path returns
that row. -/
theorem find_row_of_nodup :
    ∀ (ms : List ManifestEntry), ((ms.map (fun e => e.1)).Nodup) →
      ∀ e ∈ ms, ms.find? (fun x => x.1 == e.1) = some e := by
  intro ms
  induction ms with
  | nil => intro _ e he; simp at he
  | cons m rest ih =>
    intro hnd e he
    rw [List.map_cons, List.nodup_cons] at hnd
    rcases List.mem_cons.1 he with h | h
    · subst h
      rw [List.find?_cons_of_pos _ (by simp)]
    · have hne : m.1 ≠ e.1 := by
        intro hcontra
        exact hnd.1 (hcontra ▸ List.mem_map_of_mem (fun x => x.1) h)
      rw [List.find?_cons_of_neg _ (by simp [hne])]
      exact ih hnd.2 e h

/-- With distinct archive names, the manifest's paths are distinct. -/
theorem manifest_paths_nodup (ar : Archive) (cfg : Config)
    (hn : (namelist ar).Nodup) :
    ((manifestEntries ar cfg).map (fun e => e.1)).Nodup := by
  unfold manifestEntries
  rw [classifyLoop_paths ar cfg (sortedNames ar) 2]
  exact List.Nodup.filter _ (((sortedNames_perm ar).nodup_iff).2 hn)

/-- Under distinct names, the write-phase lookup of a linked row's path
returns the row's linked index. -/
theorem docIndexFor_of_linked (ar : Archive) (cfg : Config)
    (hn : (namelist ar).Nodup) (e : ManifestEntry)
    (he : e ∈ manifestEntries ar cfg) :
    docIndexFor (manifestEntries ar cfg) e.1 = e.2.2 := by
  unfold docIndexFor
  rw [find_row_of_nodup (manifestEntries ar cfg) (manifest_paths_nodup ar cfg hn) e he]

/-- Helper: invert one linked-pairs match. -/
theorem linkedPairs_eq_aux (e : ManifestEntry) (p : String) (k : Nat)
    (heq : (match e.2.2 with
      | some k => some (e.1, k) | none => (none : Option (String × Nat))) = some (p, k)) :
    e.1 = p ∧ e.2.2 = some k := by
  rcases e with ⟨p0, d0, oz⟩
  cases oz with
  | none => simp at heq
  | some k0 =>
    simp only [Option.some.injEq, Prod.mk.injEq] at heq
    exact ⟨heq.1, by rw [heq.2]⟩

/-- Under distinct names, the emitted source documents carry the consecutive
indices 2, 3, … in order, paired with the included files. -/
theorem sourceDocs_zip (ar : Archive) (cfg : Config) (hn : (namelist ar).Nodup) :
    sourceDocs ar cfg =
      List.zipWith (fun k pc => ((some k : Option Nat), pc.1, normalizeForOutput cfg pc.1 pc.2))
        (List.range' 2 (includedFiles ar cfg).length) (includedFiles ar cfg) := by
  have hlink : linkedPairs (manifestEntries ar cfg) =
      List.zip ((includedFiles ar cfg).map (fun e => e.1))
        (List.range' 2 (includedFiles ar cfg).length) :=
    classifyLoop_linked ar cfg (sortedNames ar) 2
  apply List.ext_getElem
  · simp [sourceDocs]
  · intro j h1 h2
    rw [List.getElem_zipWith]
    unfold sourceDocs at h1 ⊢
    rw [List.getElem_map]
    have hjlen : j < (includedFiles ar cfg).length := by
      simpa using h1
    have hpair : ((includedFiles ar cfg)[j].1, 2 + j) ∈
        linkedPairs (manifestEntries ar cfg) := by
      rw [hlink]
      rw [List.mem_iff_getElem]
      refine ⟨j, by simp [hjlen], ?_⟩
      rw [List.getElem_zip, List.getElem_map, List.getElem_range']
      simp
    rcases List.mem_filterMap.1 hpair with ⟨e, he, heq⟩
    have hee := linkedPairs_eq_aux e _ _ heq
    have hdi := docIndexFor_of_linked ar cfg hn e he
    have hfinal : docIndexFor (manifestEntries ar cfg) ((includedFiles ar cfg)[j]).1 =
        some (2 + j) := by
      rw [← hee.1, hdi, hee.2]
    rw [hfinal, List.getElem_range']
    simp

/-- No document of the indexed block carries an index below the block's start. -/
theorem countP_zip_zero (cfg : Config) (l : List (String × String)) :
    ∀ (start i : Nat), i < start →
      (List.zipWith (fun k pc => ((some k : Option Nat), pc.1, normalizeForOutput cfg pc.1 pc.2))
        (List.range' start l.length) l).countP (fun d => d.1 == some i) = 0 := by
  induction l with
  | nil => intro start i _; simp
  | cons pc rest ih =>
    intro start i hi
    rw [List.length_cons, List.range'_succ, List.zipWith_cons_cons, List.countP_cons]
    rw [ih (start + 1) i (by omega)]
    simp only [beq_iff_eq, Option.some.injEq]
    rw [if_neg (by omega)]

/-- Exactly one document of the indexed block carries each in-range index. -/
theorem countP_zip_one (cfg : Config) (l : List (String × String)) :
    ∀ (start j : Nat), j < l.length →
      (List.zipWith (fun k pc => ((some k : Option Nat), pc.1, normalizeForOutput cfg pc.1 pc.2))
        (List.range' start l.length) l).countP (fun d => d.1 == some (start + j)) = 1 := by
  induction l with
  | nil => intro start j hj; simp at hj
  | cons pc rest ih =>
    intro start j hj
    rw [List.length_cons, List.range'_succ, List.zipWith_cons_cons, List.countP_cons]
    cases j with
    | zero =>
      rw [Nat.add_zero, countP_zip_zero cfg rest (start + 1) start (by omega)]
      simp
    | succ k =>
      have hk : k < rest.length := by simpa using hj
      have hrw : start + (k + 1) = (start + 1) + k := by omega
      rw [hrw, ih (start + 1) k hk]
      simp only [beq_iff_eq, Option.some.injEq]
      rw [if_neg (by omega)]

/-- Claim C1 counterexample: a listing holding the same path twice.  Both
emitted copies carry the first row's index (2), so the second row's link (3)
appears zero times among the emitted documents while index 2 appears twice —
the invariant fails for listings with repeated paths. -/
theorem c1_counterexample :
    ("a.txt", "Source file", some 3) ∈
      manifestEntries [("a.txt", [104, 105]), ("a.txt", [104, 105])]
        ⟨"python", true, true, true⟩
  ∧ (emittedDocs [("a.txt", [104, 105]), ("a.txt", [104, 105])]
      ⟨"python", true, true, true⟩).countP (fun d => d.1 == some 3) = 0
  ∧ (emittedDocs [("a.txt", [104, 105]), ("a.txt", [104, 105])]
      ⟨"python", true, true, true⟩).countP (fun d => d.1 == some 2) = 2 := by
  refine ⟨by decide, by decide, by decide⟩

/-- Claim C1 (corrected): in structured mode, for every archive whose listing
has no repeated name, every manifest row with a linked index names an index
that occurs exactly once among the emitted documents, and every document
carrying that index has the row's path as its source. -/
theorem c1_amended (ar : Archive) (cfg : Config)
    (hn : (namelist ar).Nodup) (hcl : cfg.claude = true) :
    ∀ e ∈ manifestEntries ar cfg, ∀ i, e.2.2 = some i →
      ((emittedDocs ar cfg).countP (fun d => d.1 == some i) = 1
        ∧ ∀ d ∈ emittedDocs ar cfg, d.1 = some i → d.2.1 = e.1) := by
  intro e he i hi
  have hpair : (e.1, i) ∈ linkedPairs (manifestEntries ar cfg) :=
    List.mem_filterMap.2 ⟨e, he, by rw [hi]⟩
  have hlink : linkedPairs (manifestEntries ar cfg) =
      List.zip ((includedFiles ar cfg).map (fun x => x.1))
        (List.range' 2 (includedFiles ar cfg).length) :=
    classifyLoop_linked ar cfg (sortedNames ar) 2
  rw [hlink] at hpair
  obtain ⟨n, hlt, hgete⟩ := List.mem_iff_getElem.1 hpair
  have hn' : n < (includedFiles ar cfg).length := by
    simpa using hlt
  rw [List.getElem_zip, List.getElem_map, List.getElem_range'] at hgete
  have he1 : (includedFiles ar cfg)[n].1 = e.1 := congrArg Prod.fst hgete
  have hieq : i = 2 + n := by
    have := congrArg Prod.snd hgete
    simpa using this.symm
  subst hieq
  constructor
  · unfold emittedDocs
    rw [List.countP_cons, List.countP_cons, sourceDocs_zip ar cfg hn]
    rw [countP_zip_one cfg (includedFiles ar cfg) 2 n hn']
    simp only [beq_iff_eq, Option.some.injEq]
    rw [if_neg (by omega), if_neg (by omega)]
  · intro d hd hdi
    unfold emittedDocs at hd
    rcases List.mem_cons.1 hd with h0 | hd1
    · rw [h0] at hdi
      simp at hdi
      omega
    rcases List.mem_cons.1 hd1 with h1 | hsrc
    · rw [h1] at hdi
      simp at hdi
      omega
    · rw [sourceDocs_zip ar cfg hn] at hsrc
      obtain ⟨m, hm, hdm⟩ := List.mem_iff_getElem.1 hsrc
      have hm' : m < (includedFiles ar cfg).length := by
        simpa using hm
      simp only [List.getElem_zipWith, List.getElem_range'] at hdm
      have hd1eq : d.1 = some (2 + 1 * m) := by rw [← hdm]
      rw [hdi] at hd1eq
      have hmn : m = n := by
        simp only [Option.some.injEq] at hd1eq
        omega
      subst hmn
      have hsnd : d.2.1 = (includedFiles ar cfg)[m].1 := by rw [← hdm]
      rw [hsnd]
      exact he1

/-- Witness for C1's amended statement on a one-file archive. -/
theorem c1_amended_witness :
    (emittedDocs [("b.txt", [104, 105])] ⟨"python", true, true, true⟩).countP
        (fun d => d.1 == some 2) = 1 :=
  ((c1_amended [("b.txt", [104, 105])] ⟨"python", true, true, true⟩ (by decide) rfl)
    ("b.txt", "Source file", some 2) (by decide) 2 rfl).1

/-! ## Claim C10: the README is emitted twice under include-all -/

/-- Two nonempty prefixes of one list start with the same element. -/
theorem isPrefixOf_head_eq {a b : Char} {as bs l : List Char}
    (h1 : (a :: as).isPrefixOf l = true) (h2 : (b :: bs).isPrefixOf l = true) : a = b := by
  cases l with
  | nil => simp [List.isPrefixOf] at h1
  | cons c cs =>
    simp only [List.isPrefixOf, Bool.and_eq_true, beq_iff_eq] at h1 h2
    rw [h1.1, h2.1]

/-- A README.md-matching name never ends in `.py`. -/
theorem readme_not_py (p : String) (h : isReadmeMdName p = true) :
    strEndsWith p ".py" = false := by
  unfold isReadmeMdName at h
  rcases Bool.or_eq_true_iff.1 h with h1 | h2
  · cases hc : strEndsWith p ".py" with
    | false => rfl
    | true =>
      unfold strEndsWith at h1 hc
      have : ('d' : Char) = 'y' := isPrefixOf_head_eq h1 hc
      simp at this
  · have hp : p = "README.md" := by simpa using h2
    subst hp
    decide

/-- A README.md-matching name is not a directory name. -/
theorem readme_not_dir (p : String) (h : isReadmeMdName p = true) :
    strEndsWith p "/" = false := by
  unfold isReadmeMdName at h
  rcases Bool.or_eq_true_iff.1 h with h1 | h2
  · cases hc : strEndsWith p "/" with
    | false => rfl
    | true =>
      unfold strEndsWith at h1 hc
      have : ('d' : Char) = '/' := isPrefixOf_head_eq h1 hc
      simp at this
  · have hp : p = "README.md" := by simpa using h2
    subst hp
    decide

/-- Normalization leaves non-`.py` paths untouched. -/
theorem normalizeForOutput_of_not_py (cfg : Config) (p c : String)
    (h : strEndsWith p ".py" = false) : normalizeForOutput cfg p c = c := by
  unfold normalizeForOutput
  rw [if_neg (by simp [h])]

/-- With distinct paths, two manifest rows with the same path are the same row. -/
theorem rows_eq_of_nodup (ms : List ManifestEntry)
    (hnd : (ms.map (fun e => e.1)).Nodup)
    (e e' : ManifestEntry) (he : e ∈ ms) (he' : e' ∈ ms) (heq : e.1 = e'.1) : e = e' := by
  have h1 := find_row_of_nodup ms hnd e he
  have h2 := find_row_of_nodup ms hnd e' he'
  rw [heq] at h1
  rw [h1] at h2
  exact Option.some.inj h2

/-- Claim C10 counterexample: an archive whose only entry is an empty (hence
non-binary) `README.md`, with include-all active.  The path is the source of
documents 0 and 2, but the two contents differ (placeholder versus empty), so
"the README content appears twice in the artifact" fails as stated. -/
theorem c10_counterexample :
    ((emittedDocs [("README.md", [])] ⟨"python", true, true, true⟩).map
        (fun d => (d.1, d.2.1)))
      = [(some 0, "README.md"), (some 1, "manifest.txt"), (some 2, "README.md")]
  ∧ ((emittedDocs [("README.md", [])] ⟨"python", true, true, true⟩).head?.map
        (fun d => d.2.2)) = some noReadmePlaceholder
  ∧ ((emittedDocs [("README.md", [])] ⟨"python", true, true, true⟩)[2]?.map
        (fun d => d.2.2)) = some "" := by
  refine ⟨by decide, by decide, by decide⟩

/-- Claim C10 (corrected): for an archive with distinct names whose first
README.md match is non-binary with non-empty decoded content, under the
include-all override in structured mode the matched path is the source of the
leading README document (index 0) and of a classified copy with the same
content at some index at least 2; every manifest row for that path links to an
index at least 2, never to the leading copy. -/
theorem c10_amended (ar : Archive) (cfg : Config) (p : String)
    (hn : (namelist ar).Nodup) (hcl : cfg.claude = true) (hall : cfg.includeAll = true)
    (hfind : (namelist ar).find? isReadmeMdName = some p)
    (hbin : is_binary_file ((zipRead ar p).take 1024) = false)
    (hne : decodeReplace (zipRead ar p) ≠ "") :
    (emittedDocs ar cfg).head? = some (some 0, p, decodeReplace (zipRead ar p))
    ∧ (∃ j, 2 ≤ j ∧ (some j, p, decodeReplace (zipRead ar p)) ∈ emittedDocs ar cfg)
    ∧ (∀ e ∈ manifestEntries ar cfg, e.1 = p → ∃ j, 2 ≤ j ∧ e.2.2 = some j) := by
  have hmd : isReadmeMdName p = true := List.find?_some hfind
  have hmem : p ∈ namelist ar := List.mem_of_find?_eq_some hfind
  have hnd : strEndsWith p "/" = false := readme_not_dir p hmd
  have hrd : findReadmeContent ar = (p, decodeReplace (zipRead ar p)) := by
    unfold findReadmeContent
    rw [hfind]
    simp [hne]
  have hinc : (p, decodeReplace (zipRead ar p)) ∈ includedFiles ar cfg :=
    includedFiles_mem_of ar cfg (sortedNames ar) 2 p (mem_sortedNames ar p hmem) hnd hbin
      (by unfold shouldInclude?; rw [if_pos (by simp [hall])])
  obtain ⟨n, hlt, hgete⟩ := List.mem_iff_getElem.1 hinc
  refine ⟨?_, ?_, ?_⟩
  · show some (some 0, (findReadmeContent ar).1, (findReadmeContent ar).2) = _
    rw [hrd]
  · refine ⟨2 + n, by omega, ?_⟩
    have hdoc : (some (2 + n), p, decodeReplace (zipRead ar p)) ∈ sourceDocs ar cfg := by
      rw [sourceDocs_zip ar cfg hn]
      rw [List.mem_iff_getElem]
      refine ⟨n, by simpa using hlt, ?_⟩
      simp only [List.getElem_zipWith, List.getElem_range']
      rw [hgete]
      rw [normalizeForOutput_of_not_py cfg p _ (readme_not_py p hmd)]
      simp
    exact List.mem_cons_of_mem _ (List.mem_cons_of_mem _ hdoc)
  · intro e he hep
    have hpair : (p, 2 + n) ∈ linkedPairs (manifestEntries ar cfg) := by
      have hlink : linkedPairs (manifestEntries ar cfg) =
          List.zip ((includedFiles ar cfg).map (fun x => x.1))
            (List.range' 2 (includedFiles ar cfg).length) :=
        classifyLoop_linked ar cfg (sortedNames ar) 2
      rw [hlink, List.mem_iff_getElem]
      refine ⟨n, by simpa using hlt, ?_⟩
      simp only [List.getElem_zip, List.getElem_map, List.getElem_range']
      rw [hgete]
      simp
    rcases List.mem_filterMap.1 hpair with ⟨e0, he0, heq0⟩
    have hee0 := linkedPairs_eq_aux e0 _ _ heq0
    have : e = e0 :=
      rows_eq_of_nodup (manifestEntries ar cfg) (manifest_paths_nodup ar cfg hn)
        e e0 he he0 (by rw [hep, hee0.1])
    refine ⟨2 + n, by omega, ?_⟩
    rw [this, hee0.2]

/-- Witness for C10's amended statement on a concrete archive. -/
theorem c10_amended_witness :
    (∃ j, 2 ≤ j ∧ (some j, "README.md", "hi") ∈
      emittedDocs [("README.md", [104, 105])] ⟨"python", true, true, true⟩) := by
  have h := (c10_amended [("README.md", [104, 105])] ⟨"python", true, true, true⟩
    "README.md" (by decide) rfl rfl (by decide) (by decide) (by decide)).2.1
  simpa using h

/-! ## Claim C8: per-entry recoverable errors -/

/-- A run of `a` bytes ending in an invalid byte fails strict decoding. -/
theorem utf8Decode_a_invalid (n : Nat) :
    utf8Decode (List.replicate n 97 ++ [255]) = none := by
  induction n with
  | zero => decide
  | succ k ih =>
    rw [List.replicate_succ, List.cons_append]
    show (utf8Decode (List.replicate k 97 ++ [255])).map (fun cs => Char.ofNat 97 :: cs) = none
    rw [ih]
    rfl

/-- A run of `a` bytes decodes to a run of `a` characters. -/
theorem utf8Decode_a_run (n : Nat) :
    utf8Decode (List.replicate n 97) = some (List.replicate n 'a') := by
  induction n with
  | zero => decide
  | succ k ih =>
    rw [List.replicate_succ, List.replicate_succ]
    show (utf8Decode (List.replicate k 97)).map (fun cs => Char.ofNat 97 :: cs) =
      some ('a' :: List.replicate k 'a')
    rw [ih]
    rfl

/-- The first-kilobyte sample of the counterexample entry is not binary. -/
theorem c8_sample_not_binary :
    is_binary_file ((List.replicate 1024 (97 : Nat) ++ [255]).take 1024) = false := by
  rw [List.take_left' (by rw [List.length_replicate])]
  unfold is_binary_file
  rw [utf8Decode_a_run]
  show (List.replicate 1024 'a').contains nulChar = false
  rw [Bool.eq_false_iff]
  intro hc
  have := List.elem_iff.1 hc
  rw [List.mem_replicate] at this
  exact absurd this.2 (by decide)

/-- Claim C8 counterexample: an entry of 1024 valid bytes followed by one
invalid byte.  The entry's bytes fail UTF-8 decoding, yet only the first
kilobyte is sampled, so the entry is not skipped: it is included and its
replace-decoded content is emitted. -/
theorem c8_counterexample :
    utf8Decode (zipRead [("a.txt", List.replicate 1024 97 ++ [255])] "a.txt") = none
  ∧ (includedFiles [("a.txt", List.replicate 1024 97 ++ [255])]
      ⟨"python", true, true, true⟩).map (fun e => e.1) = ["a.txt"] := by
  have hzip : zipRead [("a.txt", List.replicate 1024 97 ++ [255])] "a.txt" =
      List.replicate 1024 97 ++ [255] := rfl
  constructor
  · rw [hzip]
    exact utf8Decode_a_invalid 1024
  · have hpe : processEntry [("a.txt", List.replicate 1024 97 ++ [255])]
        ⟨"python", true, true, true⟩ "a.txt" 2 =
        (("a.txt", "Source file", some 2),
          some ("a.txt", decodeReplace (zipRead [("a.txt", List.replicate 1024 97 ++ [255])]
            "a.txt"))) := by
      unfold processEntry
      rw [if_neg (by rw [hzip, c8_sample_not_binary]; simp)]
      rw [show shouldInclude? ⟨"python", true, true, true⟩ "a.txt"
        (decodeReplace (zipRead [("a.txt", List.replicate 1024 97 ++ [255])] "a.txt")) =
          some true from by unfold shouldInclude?; rw [if_pos rfl]]
    show ((classifyLoop [("a.txt", List.replicate 1024 97 ++ [255])]
      ⟨"python", true, true, true⟩ (sortedNames [("a.txt", List.replicate 1024 97 ++ [255])])
      2).2).map (fun e => e.1) = ["a.txt"]
    rw [show sortedNames [("a.txt", List.replicate 1024 97 ++ [255])] = ["a.txt"] from rfl]
    rw [classifyLoop]
    rw [if_neg (by decide), hpe]
    rw [classifyLoop]
    rfl

/-- Claim C8 (corrected): per-entry recoverable errors never abort the run.
An entry whose first-kilobyte sample fails strict UTF-8 decoding is recorded
in the manifest (as a linkless `Binary file` row) with no emitted content,
while every other non-directory name still gets its manifest row — the
manifest covers the whole walked listing unconditionally.  An included Python
file whose normalization fails to parse keeps its original content and is
still emitted.  Full-content decoding uses replacement and never fails, so an
entry with a valid sample but invalid later bytes is emitted, not skipped. -/
theorem c8_amended (ar : Archive) (cfg : Config) :
    (∀ name, name ∈ namelist ar → strEndsWith name "/" = false →
      utf8Decode ((zipRead ar name).take 1024) = none →
      ((name, "Binary file", (none : Option Nat)) ∈ manifestEntries ar cfg
        ∧ ∀ c, (name, c) ∉ includedFiles ar cfg))
  ∧ ((manifestEntries ar cfg).map (fun e => e.1) =
      (sortedNames ar).filter (fun n => !(strEndsWith n "/")))
  ∧ (∀ p c, (p, c) ∈ includedFiles ar cfg →
      cfg.lang = "python" → cfg.keepComments = false → strEndsWith p ".py" = true →
      remove_comments_and_docstrings c = none →
      (docIndexFor (manifestEntries ar cfg) p, p, c) ∈ emittedDocs ar cfg) := by
  refine ⟨?_, ?_, ?_⟩
  · intro name hmem hnd hdec
    have hb : is_binary_file ((zipRead ar name).take 1024) = true := by
      unfold is_binary_file
      rw [hdec]
    refine ⟨binary_manifest_row ar cfg (sortedNames ar) 2 name
      (mem_sortedNames ar name hmem) hnd hb, ?_⟩
    intro c hc
    have := (mem_includedFiles_spec ar cfg (sortedNames ar) 2 name c hc).2.2.1
    rw [hb] at this
    cases this
  · exact classifyLoop_paths ar cfg (sortedNames ar) 2
  · intro p c hinc hlang hkeep hpy hnone
    have hnorm : normalizeForOutput cfg p c = c := by
      unfold normalizeForOutput
      split
      · rw [hnone]
      · rfl
    have hdoc : (docIndexFor (manifestEntries ar cfg) p, p, c) ∈ sourceDocs ar cfg := by
      unfold sourceDocs
      have := List.mem_map_of_mem
        (fun pc => (docIndexFor (manifestEntries ar cfg) pc.1, pc.1,
          normalizeForOutput cfg pc.1 pc.2)) hinc
      simpa [hnorm] using this
    exact List.mem_cons_of_mem _ (List.mem_cons_of_mem _ hdoc)

/-- Witness for C8's amended statement: a decode-failure entry gets a linkless
row, and a Python file with a syntax error is emitted unchanged. -/
theorem c8_amended_witness :
    (("x.bin", "Binary file", (none : Option Nat)) ∈
        manifestEntries [("x.bin", [255])] ⟨"python", false, true, true⟩
      ∧ ∀ c, ("x.bin", c) ∉ includedFiles [("x.bin", [255])] ⟨"python", false, true, true⟩)
  ∧ (docIndexFor (manifestEntries [("a.py", [120, 32, 61, 32, 40, 49, 10])]
        ⟨"python", false, true, true⟩) "a.py", "a.py", "x = (1\n") ∈
      emittedDocs [("a.py", [120, 32, 61, 32, 40, 49, 10])] ⟨"python", false, true, true⟩ := by
  refine ⟨?_, ?_⟩
  · exact (c8_amended [("x.bin", [255])] ⟨"python", false, true, true⟩).1
      "x.bin" (by decide) (by decide) (by decide)
  · exact (c8_amended [("a.py", [120, 32, 61, 32, 40, 49, 10])]
      ⟨"python", false, true, true⟩).2.2 "a.py" "x = (1\n" (by decide) rfl rfl
      (by decide) (by decide)

/-! ## Round trip of the fragment's printer and parser

These lemmas show that re-parsing printed text recovers the printed tree,
which lets the idempotence of the tree transformation transfer to the
string-level normalizer. -/

theorem scanStr_cons (c : Char) (rest : List Char) :
    scanStr (c :: rest) =
      if c = '\'' then some ([], rest)
      else if c = '\\' then scanStrEsc rest
      else (scanStr rest).map (fun sr => (c :: sr.1, sr.2)) := rfl

theorem scanStrEsc_cons (e : Char) (rest2 : List Char) :
    scanStrEsc (e :: rest2) =
      match unescChar e, scanStr rest2 with
      | some u, some sr => some (u :: sr.1, sr.2)
      | _, _ => none := rfl

theorem scanStr_escape (s : List Char) (rest : List Char) :
    scanStr (escapeChars s ++ '\'' :: rest) = some (s, rest) := by
  induction s with
  | nil =>
    rw [show escapeChars [] ++ '\'' :: rest = '\'' :: rest from rfl, scanStr_cons, if_pos rfl]
  | cons c cs ih =>
    show scanStr ((escChar c ++ escapeChars cs) ++ '\'' :: rest) = _
    rw [List.append_assoc]
    by_cases h1 : c = '\\'
    · subst h1
      rw [show escChar '\\' = ['\\', '\\'] from rfl]
      rw [show (['\\', '\\'] : List Char) ++ (escapeChars cs ++ '\'' :: rest) =
        '\\' :: '\\' :: (escapeChars cs ++ '\'' :: rest) from rfl]
      rw [scanStr_cons, if_neg (by decide), if_pos rfl, scanStrEsc_cons, ih]
      rfl
    · by_cases h2 : c = '\''
      · subst h2
        rw [show escChar '\'' = ['\\', '\''] from rfl]
        rw [show (['\\', '\''] : List Char) ++ (escapeChars cs ++ '\'' :: rest) =
          '\\' :: '\'' :: (escapeChars cs ++ '\'' :: rest) from rfl]
        rw [scanStr_cons, if_neg (by decide), if_pos rfl, scanStrEsc_cons, ih]
        rfl
      · by_cases h3 : c = '\n'
        · subst h3
          rw [show escChar '\n' = ['\\', 'n'] from rfl]
          rw [show (['\\', 'n'] : List Char) ++ (escapeChars cs ++ '\'' :: rest) =
            '\\' :: 'n' :: (escapeChars cs ++ '\'' :: rest) from rfl]
          rw [scanStr_cons, if_neg (by decide), if_pos rfl, scanStrEsc_cons, ih]
          rfl
        · rw [show escChar c = [c] from by
            unfold escChar; rw [if_neg h1, if_neg h2, if_neg h3]]
          rw [show ([c] : List Char) ++ (escapeChars cs ++ '\'' :: rest) =
            c :: (escapeChars cs ++ '\'' :: rest) from rfl]
          rw [scanStr_cons, if_neg h2, if_neg h1, ih]
          rfl

theorem takeWhile_append_of_all {p : Char → Bool} (l : List Char) (hl : l.all p = true)
    (c : Char) (hc : p c = false) (r : List Char) :
    (l ++ c :: r).takeWhile p = l := by
  induction l with
  | nil => simp [List.takeWhile, hc]
  | cons a as ih =>
    rw [List.all_cons, Bool.and_eq_true] at hl
    simp [List.takeWhile, hl.1, ih hl.2]

theorem dropWhile_append_of_all {p : Char → Bool} (l : List Char) (hl : l.all p = true)
    (c : Char) (hc : p c = false) (r : List Char) :
    (l ++ c :: r).dropWhile p = c :: r := by
  induction l with
  | nil => simp [List.dropWhile, hc]
  | cons a as ih =>
    rw [List.all_cons, Bool.and_eq_true] at hl
    simp [List.dropWhile, hl.1, ih hl.2]

theorem mk_data_eq (s : String) : String.mk s.data = s := rfl

theorem identOk_data (n : Ident) : n.val.data.all isIdentChar = true := by
  have h := n.2
  unfold identOk at h
  rw [Bool.and_eq_true] at h
  exact h.2

theorem parseDefTail_render (isAsync : Bool) (n : Ident) :
    parseDefTail isAsync (n.val.data ++ "():".data) = some (.defT isAsync n) := by
  unfold parseDefTail
  rw [show (n.val.data ++ "():".data : List Char) = n.val.data ++ '(' :: "):".data from rfl]
  rw [takeWhile_append_of_all n.val.data (identOk_data n) '(' (by decide) ("):".data),
      dropWhile_append_of_all n.val.data (identOk_data n) '(' (by decide) ("):".data)]
  rw [mk_data_eq]
  rw [dif_pos n.2]
  rfl

theorem parseClassTail_render (n : Ident) :
    parseClassTail (n.val.data ++ ":".data) = some (.classT n) := by
  unfold parseClassTail
  rw [show (n.val.data ++ ":".data : List Char) = n.val.data ++ ':' :: [] from rfl]
  rw [takeWhile_append_of_all n.val.data (identOk_data n) ':' (by decide) [],
      dropWhile_append_of_all n.val.data (identOk_data n) ':' (by decide) []]
  rw [mk_data_eq]
  rw [dif_pos n.2]
  rfl

theorem parseTok_renderTok (t : Tok) : parseTok (renderTok t) = some t := by
  have hpassd : ("pass".data : List Char) = 'p' :: 'a' :: 's' :: 's' :: [] := rfl
  have hnoned : ("None".data : List Char) = 'N' :: 'o' :: 'n' :: 'e' :: [] := rfl
  have hdefd : ("def ".data : List Char) = 'd' :: 'e' :: 'f' :: ' ' :: [] := rfl
  have hadefd : ("async def ".data : List Char) =
    'a' :: 's' :: 'y' :: 'n' :: 'c' :: ' ' :: 'd' :: 'e' :: 'f' :: ' ' :: [] := rfl
  have hclassd : ("class ".data : List Char) = 'c' :: 'l' :: 'a' :: 's' :: 's' :: ' ' :: [] := rfl
  have hqd : ("'".data : List Char) = '\'' :: [] := rfl
  cases t with
  | passT => decide
  | constT c =>
    cases c with
    | noneC => decide
    | str s =>
      show parseTok ('\'' :: (escapeChars s.data ++ ['\''])) = _
      unfold parseTok
      rw [hpassd, hnoned, hdefd, hadefd, hclassd, hqd]
      rw [if_neg (by simp), if_neg (by simp),
          if_neg (by simp [List.isPrefixOf]), if_neg (by simp [List.isPrefixOf]),
          if_neg (by simp [List.isPrefixOf]), if_pos (by simp [List.isPrefixOf])]
      show (match scanStr (('\'' :: (escapeChars s.data ++ ['\''])).drop 1) with
        | some (s, []) => some (Tok.constT (.str (String.mk s)))
        | _ => none) = _
      rw [show ('\'' :: (escapeChars s.data ++ ['\''])).drop 1 =
        escapeChars s.data ++ '\'' :: [] from rfl]
      rw [scanStr_escape s.data []]
  | defT isAsync n =>
    cases isAsync with
    | false =>
      show parseTok ("def ".data ++ n.val.data ++ "():".data) = _
      unfold parseTok
      rw [List.append_assoc, hdefd, hnoned, hpassd, hadefd, hclassd, hqd]
      rw [show ('d' :: 'e' :: 'f' :: ' ' :: []) ++ (n.val.data ++ "():".data) =
        'd' :: 'e' :: 'f' :: ' ' :: (n.val.data ++ "():".data) from rfl]
      rw [if_neg (by simp), if_neg (by simp), if_pos (by simp [List.isPrefixOf])]
      rw [show ('d' :: 'e' :: 'f' :: ' ' :: (n.val.data ++ "():".data)).drop 4 =
        n.val.data ++ "():".data from rfl]
      exact parseDefTail_render false n
    | true =>
      show parseTok ("async def ".data ++ n.val.data ++ "():".data) = _
      unfold parseTok
      rw [List.append_assoc, hadefd, hnoned, hpassd, hdefd, hclassd, hqd]
      rw [show ('a' :: 's' :: 'y' :: 'n' :: 'c' :: ' ' :: 'd' :: 'e' :: 'f' :: ' ' :: []) ++
        (n.val.data ++ "():".data) =
        'a' :: 's' :: 'y' :: 'n' :: 'c' :: ' ' :: 'd' :: 'e' :: 'f' :: ' ' ::
          (n.val.data ++ "():".data) from rfl]
      rw [if_neg (by simp), if_neg (by simp), if_neg (by simp [List.isPrefixOf]),
          if_pos (by simp [List.isPrefixOf])]
      rw [show ('a' :: 's' :: 'y' :: 'n' :: 'c' :: ' ' :: 'd' :: 'e' :: 'f' :: ' ' ::
        (n.val.data ++ "():".data)).drop 10 = n.val.data ++ "():".data from rfl]
      exact parseDefTail_render true n
  | classT n =>
    show parseTok ("class ".data ++ n.val.data ++ ":".data) = _
    unfold parseTok
    rw [List.append_assoc, hclassd, hnoned, hpassd, hdefd, hadefd, hqd]
    rw [show ('c' :: 'l' :: 'a' :: 's' :: 's' :: ' ' :: []) ++ (n.val.data ++ ":".data) =
      'c' :: 'l' :: 'a' :: 's' :: 's' :: ' ' :: (n.val.data ++ ":".data) from rfl]
    rw [if_neg (by simp), if_neg (by simp), if_neg (by simp [List.isPrefixOf]),
        if_neg (by simp [List.isPrefixOf]), if_pos (by simp [List.isPrefixOf])]
    rw [show ('c' :: 'l' :: 'a' :: 's' :: 's' :: ' ' :: (n.val.data ++ ":".data)).drop 6 =
      n.val.data ++ ":".data from rfl]
    exact parseClassTail_render n

theorem countSpaces_cons (c : Char) (cs : List Char) :
    countSpaces (c :: cs) = if c = ' ' then countSpaces cs + 1 else 0 := rfl

theorem countSpaces_replicate_append (n : Nat) (l : List Char) :
    countSpaces (List.replicate n ' ' ++ l) = n + countSpaces l := by
  induction n with
  | zero => simp
  | succ k ih =>
    rw [List.replicate_succ, List.cons_append, countSpaces_cons, if_pos rfl, ih]
    omega

theorem countSpaces_renderTok (t : Tok) : countSpaces (renderTok t) = 0 := by
  cases t with
  | passT => decide
  | constT c =>
    cases c with
    | noneC => decide
    | str s =>
      show countSpaces ('\'' :: (escapeChars s.data ++ ['\''])) = 0
      unfold countSpaces
      rw [if_neg (by decide)]
  | defT isAsync n =>
    cases isAsync with
    | false =>
      show countSpaces ("def ".data ++ n.val.data ++ "():".data) = 0
      rw [show ("def ".data ++ n.val.data ++ "():".data : List Char) =
        'd' :: (("ef ".data ++ n.val.data) ++ "():".data) from by simp]
      unfold countSpaces
      rw [if_neg (by decide)]
    | true =>
      show countSpaces ("async def ".data ++ n.val.data ++ "():".data) = 0
      rw [show ("async def ".data ++ n.val.data ++ "():".data : List Char) =
        'a' :: (("sync def ".data ++ n.val.data) ++ "():".data) from by simp]
      unfold countSpaces
      rw [if_neg (by decide)]
  | classT n =>
    show countSpaces ("class ".data ++ n.val.data ++ ":".data) = 0
    rw [show ("class ".data ++ n.val.data ++ ":".data : List Char) =
      'c' :: (("lass ".data ++ n.val.data) ++ ":".data) from by simp]
    unfold countSpaces
    rw [if_neg (by decide)]

theorem parseLine_renderLine (d : Nat) (t : Tok) :
    parseLine (renderLine (d, t)) = some (d, t) := by
  unfold parseLine renderLine
  rw [countSpaces_replicate_append, countSpaces_renderTok, Nat.add_zero]
  rw [if_pos (by simp [Nat.mul_mod_right])]
  rw [List.drop_left' (by rw [List.length_replicate])]
  rw [parseTok_renderTok]
  have h4 : 4 * d / 4 = d := by omega
  simp [h4]

theorem no_nl_escapeChars (s : List Char) : '\n' ∉ escapeChars s := by
  induction s with
  | nil => simp [escapeChars]
  | cons c cs ih =>
    show '\n' ∉ escChar c ++ escapeChars cs
    rw [List.mem_append]
    rintro (h | h)
    · unfold escChar at h
      split at h
      · simp at h
      · split at h
        · simp at h
        · split at h
          · simp at h
          · rename_i h1 h2 h3
            simp only [List.mem_singleton] at h
            exact h3 h.symm
    · exact ih h

theorem no_nl_ident (n : Ident) : '\n' ∉ n.val.data := by
  intro h
  have := List.all_eq_true.1 (identOk_data n) _ h
  simp [isIdentChar] at this

theorem no_nl_renderLine (dt : Nat × Tok) : '\n' ∉ renderLine dt := by
  rcases dt with ⟨d, t⟩
  unfold renderLine
  rw [List.mem_append]
  rintro (h | h)
  · simp [List.mem_replicate] at h
  · cases t with
    | passT => simp [renderTok] at h
    | constT c =>
      cases c with
      | noneC => simp [renderTok] at h
      | str s =>
        simp only [renderTok, List.mem_cons, List.mem_append, List.mem_singleton] at h
        rcases h with h | h | h
        · simp at h
        · exact no_nl_escapeChars s.data h
        · simp at h
    | defT isAsync n =>
      cases isAsync with
      | false =>
        simp only [renderTok, List.mem_append] at h
        rcases h with (h | h) | h
        · revert h; decide
        · exact no_nl_ident n h
        · revert h; decide
      | true =>
        simp only [renderTok, List.mem_append] at h
        rcases h with (h | h) | h
        · revert h; decide
        · exact no_nl_ident n h
        · revert h; decide
    | classT n =>
      simp only [renderTok, List.mem_append] at h
      rcases h with (h | h) | h
      · revert h; decide
      · exact no_nl_ident n h
      · revert h; decide

theorem splitOnChar_cons (sep c : Char) (cs : List Char) :
    splitOnChar sep (c :: cs) =
      if c = sep then [] :: splitOnChar sep cs
      else match splitOnChar sep cs with
        | l :: ls => (c :: l) :: ls
        | [] => [[c]] := rfl

theorem splitOnChar_append_nl (l : List Char) (hl : '\n' ∉ l) (r : List Char) :
    splitOnChar '\n' (l ++ '\n' :: r) = l :: splitOnChar '\n' r := by
  induction l with
  | nil => simp [splitOnChar]
  | cons c cs ih =>
    have hc : c ≠ '\n' := fun h => hl (h ▸ List.mem_cons_self _ _)
    have hcs : '\n' ∉ cs := fun h => hl (List.mem_cons_of_mem _ h)
    show splitOnChar '\n' (c :: (cs ++ '\n' :: r)) = _
    rw [splitOnChar_cons, if_neg hc, ih hcs]

theorem splitOnChar_flatten (ls : List (List Char)) (h : ∀ l ∈ ls, '\n' ∉ l) :
    splitOnChar '\n' ((ls.map (fun l => l ++ ['\n'])).flatten) = ls ++ [[]] := by
  induction ls with
  | nil => simp [splitOnChar]
  | cons l rest ih =>
    rw [List.map_cons, List.flatten_cons, List.append_assoc]
    rw [show (['\n'] ++ (rest.map (fun l => l ++ ['\n'])).flatten : List Char) =
      '\n' :: (rest.map (fun l => l ++ ['\n'])).flatten from rfl]
    rw [splitOnChar_append_nl l (h l (List.mem_cons_self _ _))]
    rw [ih (fun x hx => h x (List.mem_cons_of_mem _ hx))]
    rfl

theorem mapLines_render (tls : List (Nat × Tok)) :
    mapLines (tls.map renderLine) = some tls := by
  induction tls with
  | nil => rfl
  | cons dt rest ih =>
    rw [List.map_cons]
    unfold mapLines
    rcases dt with ⟨d, t⟩
    rw [parseLine_renderLine, ih]

/-- The token of a statement's header line. -/
def tokOf : PyStmt → Tok
  | .exprConst c => .constT c
  | .passStmt => .passT
  | .defStmt a n _ => .defT a n
  | .classStmt n _ => .classT n

/-- The lines of a statement after its header line. -/
def innerLines (d : Nat) : PyStmt → List (Nat × Tok)
  | .defStmt _ _ b => blockLines (d + 1) b
  | .classStmt _ b => blockLines (d + 1) b
  | _ => []

theorem stmtLines_eq (d : Nat) (s : PyStmt) :
    stmtLines d s = (d, tokOf s) :: innerLines d s := by
  cases s <;> simp [stmtLines, tokOf, innerLines]

/-- The continuation after a block sits at a strictly lower indentation. -/
def restLow (d : Nat) : List (Nat × Tok) → Prop
  | [] => True
  | (i, _) :: _ => i < d

theorem restLow_block_append (d : Nat) (b : PyBlock) (rest : List (Nat × Tok))
    (h : restLow d rest) : restLow (d + 1) (blockLines d b ++ rest) := by
  cases b with
  | nil =>
    rw [show blockLines d PyBlock.nil = [] from by simp [blockLines], List.nil_append]
    cases rest with
    | nil => trivial
    | cons it r' =>
      rcases it with ⟨i, t⟩
      have hi : i < d := h
      exact Nat.lt_succ_of_lt hi
  | cons s b' =>
    rw [show blockLines d (PyBlock.cons s b') = stmtLines d s ++ blockLines d b' from by
      simp [blockLines]]
    rw [stmtLines_eq, List.cons_append, List.cons_append]
    exact Nat.lt_succ_self d

theorem parseStmtF_pass (fuel d : Nat) (ls : List (Nat × Tok)) :
    parseStmtF (fuel + 1) d .passT ls = some (.passStmt, ls) := rfl

theorem parseStmtF_const (fuel d : Nat) (c : PyConst) (ls : List (Nat × Tok)) :
    parseStmtF (fuel + 1) d (.constT c) ls = some (.exprConst c, ls) := rfl

theorem parseStmtF_def (fuel d : Nat) (a : Bool) (n : Ident) (ls : List (Nat × Tok)) :
    parseStmtF (fuel + 1) d (.defT a n) ls =
      match parseBlockF fuel (d + 1) ls with
      | some (b, r) => if b = .nil then none else some (.defStmt a n b, r)
      | none => none := rfl

theorem parseStmtF_class (fuel d : Nat) (n : Ident) (ls : List (Nat × Tok)) :
    parseStmtF (fuel + 1) d (.classT n) ls =
      match parseBlockF fuel (d + 1) ls with
      | some (b, r) => if b = .nil then none else some (.classStmt n b, r)
      | none => none := rfl

theorem parseBlockF_nilEq (fuel d : Nat) :
    parseBlockF (fuel + 1) d [] = some (.nil, []) := rfl

theorem parseBlockF_consEq (fuel d i : Nat) (t : Tok) (rest : List (Nat × Tok)) :
    parseBlockF (fuel + 1) d ((i, t) :: rest) =
      if i == d then
        match parseStmtF fuel d t rest with
        | some (s, r) =>
          match parseBlockF fuel d r with
          | some (b, r2) => some (.cons s b, r2)
          | none => none
        | none => none
      else some (.nil, (i, t) :: rest) := rfl

mutual
theorem parseStmtF_complete (s : PyStmt) :
    ∀ (fuel d : Nat) (cont : List (Nat × Tok)), restLow (d + 1) cont →
    ∀ (res : PyStmt) (r' : List (Nat × Tok)),
      parseStmtF fuel d (tokOf s) (innerLines d s ++ cont) = some (res, r') →
      res = s ∧ r' = cont := by
  intro fuel d cont hc res r' h
  cases fuel with
  | zero => simp [parseStmtF] at h
  | succ fuel =>
    cases s with
    | passStmt =>
      simp only [tokOf, innerLines, List.nil_append, parseStmtF_pass,
        Option.some.injEq, Prod.mk.injEq] at h
      exact ⟨h.1.symm, h.2.symm⟩
    | exprConst c =>
      simp only [tokOf, innerLines, List.nil_append, parseStmtF_const,
        Option.some.injEq, Prod.mk.injEq] at h
      exact ⟨h.1.symm, h.2.symm⟩
    | defStmt a n b =>
      simp only [tokOf, innerLines] at h
      rw [parseStmtF_def] at h
      rcases hpb : parseBlockF fuel (d + 1) (blockLines (d + 1) b ++ cont) with _ | ⟨b1, rv⟩
      · rw [hpb] at h
        dsimp only at h
        exact absurd h (by simp)
      · rw [hpb] at h
        dsimp only at h
        by_cases hb1 : b1 = PyBlock.nil
        · rw [if_pos hb1] at h; exact absurd h (by simp)
        · rw [if_neg hb1] at h
          simp only [Option.some.injEq, Prod.mk.injEq] at h
          have hcompl := parseBlockF_complete b fuel (d + 1) cont hc b1 rv hpb
          exact ⟨by rw [← h.1, hcompl.1], by rw [← h.2]; exact hcompl.2⟩
    | classStmt n b =>
      simp only [tokOf, innerLines] at h
      rw [parseStmtF_class] at h
      rcases hpb : parseBlockF fuel (d + 1) (blockLines (d + 1) b ++ cont) with _ | ⟨b1, rv⟩
      · rw [hpb] at h
        dsimp only at h
        exact absurd h (by simp)
      · rw [hpb] at h
        dsimp only at h
        by_cases hb1 : b1 = PyBlock.nil
        · rw [if_pos hb1] at h; exact absurd h (by simp)
        · rw [if_neg hb1] at h
          simp only [Option.some.injEq, Prod.mk.injEq] at h
          have hcompl := parseBlockF_complete b fuel (d + 1) cont hc b1 rv hpb
          exact ⟨by rw [← h.1, hcompl.1], by rw [← h.2]; exact hcompl.2⟩
termination_by sizeOf s
decreasing_by
  all_goals subst_vars
  all_goals simp_arith
theorem parseBlockF_complete (b : PyBlock) :
    ∀ (fuel d : Nat) (rest : List (Nat × Tok)), restLow d rest →
    ∀ (res : PyBlock) (r' : List (Nat × Tok)),
      parseBlockF fuel d (blockLines d b ++ rest) = some (res, r') →
      res = b ∧ r' = rest := by
  intro fuel d rest hr res r' h
  cases fuel with
  | zero => simp [parseBlockF] at h
  | succ fuel =>
    cases b with
    | nil =>
      simp only [blockLines, List.nil_append] at h
      cases rest with
      | nil =>
        rw [parseBlockF_nilEq] at h
        simp only [Option.some.injEq, Prod.mk.injEq] at h
        exact ⟨h.1.symm, h.2.symm⟩
      | cons it rtl =>
        rcases it with ⟨i, t⟩
        have hi : i < d := hr
        rw [parseBlockF_consEq] at h
        rw [if_neg (by simp only [beq_iff_eq]; omega)] at h
        simp only [Option.some.injEq, Prod.mk.injEq] at h
        exact ⟨h.1.symm, h.2.symm⟩
    | cons s b' =>
      rw [show blockLines d (PyBlock.cons s b') = stmtLines d s ++ blockLines d b' from by
        simp [blockLines]] at h
      rw [stmtLines_eq, List.cons_append, List.cons_append, List.append_assoc] at h
      rw [parseBlockF_consEq] at h
      rw [if_pos (by simp)] at h
      rcases hps : parseStmtF fuel d (tokOf s) (innerLines d s ++ (blockLines d b' ++ rest))
        with _ | ⟨s1, rv1⟩
      · rw [hps] at h
        dsimp only at h
        exact absurd h (by simp)
      · rw [hps] at h
        dsimp only at h
        rcases hpb : parseBlockF fuel d rv1 with _ | ⟨b1, rv2⟩
        · rw [hpb] at h
          dsimp only at h
          exact absurd h (by simp)
        · rw [hpb] at h
          dsimp only at h
          simp only [Option.some.injEq, Prod.mk.injEq] at h
          have hstmt := parseStmtF_complete s fuel d (blockLines d b' ++ rest)
            (restLow_block_append d b' rest hr) s1 rv1 hps
          have hrv1eq : rv1 = blockLines d b' ++ rest := hstmt.2
          subst hrv1eq
          have hblk := parseBlockF_complete b' fuel d rest hr b1 rv2 hpb
          exact ⟨by rw [← h.1, hstmt.1, hblk.1], by rw [← h.2]; exact hblk.2⟩
termination_by sizeOf b
decreasing_by
  all_goals subst_vars
  all_goals simp_arith
end

theorem pyParse_pyUnparse (u v : PyBlock) (h : pyParse (pyUnparse u) = some v) : v = u := by
  have hnl : ∀ l ∈ (blockLines 0 u).map renderLine, '\n' ∉ l := by
    intro l hl
    rcases List.mem_map.1 hl with ⟨dt, _, rfl⟩
    exact no_nl_renderLine dt
  have hsplit : splitOnChar '\n' (pyUnparse u).data =
      (blockLines 0 u).map renderLine ++ [[]] := by
    show splitOnChar '\n'
      (((blockLines 0 u).map (fun l => renderLine l ++ ['\n'])).flatten) = _
    rw [show (blockLines 0 u).map (fun l => renderLine l ++ ['\n']) =
        ((blockLines 0 u).map renderLine).map (fun l => l ++ ['\n']) from by
      rw [List.map_map]
      rfl]
    exact splitOnChar_flatten _ hnl
  unfold pyParse at h
  rw [hsplit] at h
  rw [List.getLast?_concat] at h
  rw [if_pos (by decide)] at h
  rw [List.dropLast_concat] at h
  rw [mapLines_render] at h
  dsimp only at h
  rcases hpb : parseBlockF (3 * (blockLines 0 u).length + 3) 0 (blockLines 0 u)
    with _ | ⟨b, r⟩
  · rw [hpb] at h
    dsimp only at h
    exact absurd h (by simp)
  · rw [hpb] at h
    cases r with
    | cons x xs =>
      dsimp only at h
      exact absurd h (by simp)
    | nil =>
      dsimp only at h
      have hc := parseBlockF_complete u (3 * (blockLines 0 u).length + 3) 0 []
        trivial b [] (by rw [List.append_nil]; exact hpb)
      have hbv : b = v := by simpa using h
      rw [← hbv]
      exact hc.1

/-- **C4.** The comment/docstring normalizer is idempotent: whenever a source
string parses successfully (`remove_comments_and_docstrings x = some y`) and
the normalized form `y` itself parses successfully
(`remove_comments_and_docstrings y = some z`), the second normalization
returns `y` unchanged: `z = y`. -/
theorem c4_idempotent (x y z : String)
    (hx : remove_comments_and_docstrings x = some y)
    (hy : remove_comments_and_docstrings y = some z) :
    z = y := by
  unfold remove_comments_and_docstrings at hx hy
  rcases hpx : pyParse x with _ | t
  · rw [hpx] at hx; exact absurd hx (by simp)
  · rw [hpx] at hx
    have hy' : y = pyUnparse (transformList t) := by simpa using hx.symm
    rcases hpy : pyParse y with _ | t2
    · rw [hpy] at hy; exact absurd hy (by simp)
    · rw [hpy] at hy
      have hz : z = pyUnparse (transformList t2) := by simpa using hy.symm
      have ht2 : t2 = transformList t := by
        apply pyParse_pyUnparse (transformList t) t2
        rw [← hy']
        exact hpy
      rw [hz, ht2, transformList_idem, ← hy']

/-- Witness for C4 on a concrete module whose `def` carries a docstring. -/
theorem c4_idempotent_witness :
    remove_comments_and_docstrings "def f():\n    'doc'\n    pass\n"
      = some "def f():\n    pass\n"
  ∧ remove_comments_and_docstrings "def f():\n    pass\n"
      = some "def f():\n    pass\n"
  ∧ ("def f():\n    pass\n" : String) = "def f():\n    pass\n" :=
  ⟨by decide, by decide,
    c4_idempotent "def f():\n    'doc'\n    pass\n" "def f():\n    pass\n"
      "def f():\n    pass\n" (by decide) (by decide)⟩
